import Mathlib

/-!
Shallow embedding of the numerical-robustness core of the truck B-rep kernel:
the mesh optimizing filters (`truck-meshalgo/src/filters/optimizing.rs`) and
the curve algorithms (`truck-geotrait/src/algo/curve.rs`).

Mesh scalars (`f64` in the source) are modelled as exact rationals; curve
scalars are modelled as real numbers so that magnitudes and distances keep the
source's square-root form.
-/

namespace Truck

/-! ## Mesh data model -/

abbrev Point3 := Fin 3 → ℚ
abbrev Vector2 := Fin 2 → ℚ
abbrev Vector3 := Fin 3 → ℚ

/-- A face vertex: a position index, an optional texture-coordinate index and
an optional normal index (`StandardVertex` in the source). -/
structure Vertex where
  pos : ℕ
  uv : Option ℕ
  nor : Option ℕ
deriving DecidableEq, Repr

instance : Inhabited Vertex := ⟨⟨0, none, none⟩⟩

/-- Modelled from the spec: the face collection of a `PolygonMesh` is
partitioned by arity into triangles, quadrangles and general polygons
(`Faces` lives in truck-polymesh, outside the given sources). -/
structure Faces where
  tri_faces : List (List Vertex)
  quad_faces : List (List Vertex)
  other_faces : List (List Vertex)
deriving DecidableEq, Repr

/-- Modelled from the spec: pushing a face dispatches on its arity
(3 → triangles, 4 → quadrangles, anything else → general polygons). -/
def Faces.push (fs : Faces) (face : List Vertex) : Faces :=
  if face.length = 3 then { fs with tri_faces := fs.tri_faces ++ [face] }
  else if face.length = 4 then { fs with quad_faces := fs.quad_faces ++ [face] }
  else { fs with other_faces := fs.other_faces ++ [face] }

/-- `Faces::extend`: push every face of a list in order. -/
def Faces.extendF (fs : Faces) (faces : List (List Vertex)) : Faces :=
  faces.foldl Faces.push fs

/-- Modelled from the spec: `face_iter` traverses triangles, then quadrangles,
then general polygons. -/
def Faces.face_iter (fs : Faces) : List (List Vertex) :=
  fs.tri_faces ++ fs.quad_faces ++ fs.other_faces

/-- The polygon mesh: three attribute arrays plus the face collection. -/
structure PolygonMesh where
  positions : List Point3
  uv_coords : List Vector2
  normals : List Vector3
  faces : Faces
deriving DecidableEq, Repr

/-- `degenerate_triangle`: some two of the three position indices coincide. -/
def degenerate_triangle (tri : List Vertex) : Bool :=
  (tri.getD 0 default).pos == (tri.getD 1 default).pos ||
  (tri.getD 1 default).pos == (tri.getD 2 default).pos ||
  (tri.getD 2 default).pos == (tri.getD 0 default).pos

inductive QuadrangleType where
  | NonDegenerate
  | Triangle (tri : List Vertex)
  | TotallyDegenerate
deriving DecidableEq, Repr

/-- `degenerate_quadrangle`, with the same condition structure (and the same
operator grouping) as the source. -/
def degenerate_quadrangle (quad : List Vertex) : QuadrangleType :=
  let q0 := quad.getD 0 default
  let q1 := quad.getD 1 default
  let q2 := quad.getD 2 default
  let q3 := quad.getD 3 default
  if (q0.pos = q2.pos ∨ q1.pos = q3.pos) ∨ (q0.pos = q1.pos ∧ q2.pos = q3.pos) ∨
      (q1.pos = q2.pos ∧ q3.pos = q0.pos) then
    QuadrangleType.TotallyDegenerate
  else if q0.pos = q1.pos ∨ q1.pos = q2.pos then
    QuadrangleType.Triangle [q0, q2, q3]
  else if q2.pos = q3.pos ∨ q3.pos = q0.pos then
    QuadrangleType.Triangle [q0, q1, q2]
  else
    QuadrangleType.NonDegenerate

/-- Position index at slot `i` of a polygon. -/
def posAt (poly : List Vertex) (i : ℕ) : ℕ := (poly.getD i default).pos

/-- The first pair `(i, j)`, `i < j`, of slots sharing a position index, in the
order the source's double loop visits them. -/
def firstRepeat (poly : List Vertex) : Option (ℕ × ℕ) :=
  (List.range poly.length).findSome? fun i =>
    ((List.range poly.length).find? fun j =>
        decide (i < j) && decide (posAt poly i = posAt poly j)).map fun j => (i, j)

/-- `split_into_nondegenerate`: split a polygon at its first repeated position
index into the chunk `[i, j)` and the cyclic remainder, and recurse. -/
def split_into_nondegenerate (poly : List Vertex) : List (List Vertex) :=
  match h : firstRepeat poly with
  | none => [poly]
  | some (i, j) =>
    split_into_nondegenerate ((List.range (j - i)).map fun k => poly.getD (k + i) default) ++
      split_into_nondegenerate
        ((List.range' (j - i) (poly.length - (j - i))).map fun k =>
          poly.getD ((k + i) % poly.length) default)
termination_by poly.length
decreasing_by
  · obtain ⟨a, -, ha⟩ := List.exists_of_findSome?_eq_some h
    obtain ⟨j', hfind, heq⟩ := Option.map_eq_some'.1 ha
    cases heq
    have hj := List.find?_some hfind
    have hmem := List.mem_range.1 (List.mem_of_find?_eq_some hfind)
    simp only [Bool.and_eq_true, decide_eq_true_eq] at hj
    simp only [List.length_map, List.length_range]
    omega
  · obtain ⟨a, -, ha⟩ := List.exists_of_findSome?_eq_some h
    obtain ⟨j', hfind, heq⟩ := Option.map_eq_some'.1 ha
    cases heq
    have hj := List.find?_some hfind
    have hmem := List.mem_range.1 (List.mem_of_find?_eq_some hfind)
    simp only [Bool.and_eq_true, decide_eq_true_eq] at hj
    simp only [List.length_map, List.length_range']
    omega

/-- `remove_degenerate_faces`: rebuild the face collection by filtering
triangles, classifying quadrangles, and splitting general polygons. -/
def remove_degenerate_faces (mesh : PolygonMesh) : PolygonMesh :=
  let faces0 := mesh.faces.tri_faces.foldl
    (fun fs tri => if degenerate_triangle tri then fs else fs.push tri) ⟨[], [], []⟩
  let faces1 := mesh.faces.quad_faces.foldl
    (fun fs quad =>
      match degenerate_quadrangle quad with
      | QuadrangleType.TotallyDegenerate => fs
      | QuadrangleType.Triangle tri => fs.push tri
      | QuadrangleType.NonDegenerate => fs.push quad) faces0
  let faces2 := mesh.faces.other_faces.foldl
    (fun fs face => fs.extendF (split_into_nondegenerate face)) faces1
  { mesh with faces := faces2 }

/-! ## Attribute welding (`put_together_same_attrs`) -/

/-- The `f64`-to-`i64` cast of the source (`cast_int`): truncation toward
zero. -/
def truncInt (q : ℚ) : ℤ := if 0 ≤ q then ⌊q⌋ else ⌈q⌉

/-- `CastIntVector::cast_int`, componentwise. -/
def cast_int {n : ℕ} (v : Fin n → ℚ) : Fin n → ℤ := fun k => truncInt (v k)

/-- The grid cell of an attribute value: the integer cast of
`(value + tol) / (tol * 2)`, per axis. -/
def cellOf {n : ℕ} (tol : ℚ) (a : Fin n → ℚ) : Fin n → ℤ :=
  cast_int fun k => (a k + tol) / (tol * 2)

/-- Lookup in the modelled hash map. -/
def mapLookup {n : ℕ} (m : List ((Fin n → ℤ) × ℕ)) (v : Fin n → ℤ) : Option ℕ :=
  (m.find? fun p => decide (p.1 = v)).map Prod.snd

/-- The loop of `sub_put_together_same_attrs`: the hash map is modelled as an
association list (each key is inserted at most once, so lookup order is
immaterial). -/
def sub_put_go {n : ℕ} (tol : ℚ) :
    List (Fin n → ℚ) → ℕ → List ((Fin n → ℤ) × ℕ) → List ℕ
  | [], _, _ => []
  | attr :: rest, i, m =>
    let v := cellOf tol attr
    match mapLookup m v with
    | some k => k :: sub_put_go tol rest (i + 1) m
    | none => i :: sub_put_go tol rest (i + 1) ((v, i) :: m)

/-- `sub_put_together_same_attrs`: map every attribute index to the first index
whose value landed in the same grid cell. -/
def sub_put_together_same_attrs {n : ℕ} (attrs : List (Fin n → ℚ)) (tol : ℚ) :
    List ℕ :=
  sub_put_go tol attrs 0 []

/-- The grid cell of the attribute stored at index `j`. -/
def cellAt {n : ℕ} (attrs : List (Fin n → ℚ)) (tol : ℚ) (j : ℕ) : Fin n → ℤ :=
  cellOf tol (attrs.getD j default)

/-- Modelled from the spec: per-axis minimum of the axis-aligned bounding box
(`BoundingBox` lives in truck-base, outside the given sources). -/
def bboxMin (positions : List Point3) (k : Fin 3) : ℚ :=
  match positions with
  | [] => 0
  | p :: rest => (rest.map fun q => q k).foldl min (p k)

/-- Modelled from the spec: per-axis maximum of the axis-aligned bounding
box. -/
def bboxMax (positions : List Point3) (k : Fin 3) : ℚ :=
  match positions with
  | [] => 0
  | p :: rest => (rest.map fun q => q k).foldl max (p k)

/-- Modelled from the spec: `BoundingBox::center` is the midpoint of the box
corners. -/
def bboxCenter (positions : List Point3) (k : Fin 3) : ℚ :=
  (bboxMin positions k + bboxMax positions k) / 2

/-- Modelled from the spec: `BoundingBox::diagonal` is `max - min`, the
per-axis extent. -/
def bboxDiagonal (positions : List Point3) (k : Fin 3) : ℚ :=
  bboxMax positions k - bboxMin positions k

/-- The normalized positions welded by `put_together_same_attrs`:
`2 * (position - center) / max (|diagonal|) 1`, per axis. -/
def normalized_positions (positions : List Point3) : List Point3 :=
  positions.map fun position => fun k =>
    2 * ((position k - bboxCenter positions k) /
      max |bboxDiagonal positions k| 1)

/-- Apply a vertex rewrite to every face of the collection. -/
def mapVerts (g : Vertex → Vertex) (fs : Faces) : Faces :=
  ⟨fs.tri_faces.map (List.map g), fs.quad_faces.map (List.map g),
    fs.other_faces.map (List.map g)⟩

/-- `put_together_same_attrs`: weld positions on their normalized values and
uv-coordinates and normals on their raw values, then rewrite the face indices
through the three remaps (one pass per attribute kind, as in the source).
Attribute arrays are left untouched. -/
def put_together_same_attrs (mesh : PolygonMesh) (tol : ℚ) : PolygonMesh :=
  let pos_map := sub_put_together_same_attrs (normalized_positions mesh.positions) tol
  let faces1 := mapVerts (fun v => { v with pos := pos_map.getD v.pos v.pos }) mesh.faces
  let uv_map := sub_put_together_same_attrs mesh.uv_coords tol
  let faces2 := mapVerts (fun v => { v with uv := v.uv.map fun i => uv_map.getD i i }) faces1
  let nor_map := sub_put_together_same_attrs mesh.normals tol
  let faces3 := mapVerts (fun v => { v with nor := v.nor.map fun i => nor_map.getD i i }) faces2
  { mesh with faces := faces3 }

/-! ## Attribute compaction (`remove_unused_attrs`) -/

/-- The state of `sub_remove_unused_attrs`: the list of kept old indices in
order of first appearance, and the partial old-to-new translation. -/
structure SState where
  new2old : List ℕ
  old2new : List (Option ℕ)
deriving DecidableEq, Repr

/-- One step of the `sub_remove_unused_attrs` loop on one referenced index. -/
def sub_step (st : SState) (idx : ℕ) : SState × ℕ :=
  match st.old2new.getD idx none with
  | some k => (st, k)
  | none =>
    let k := st.new2old.length
    (⟨st.new2old ++ [idx], st.old2new.set idx (some k)⟩, k)

/-- Thread the compaction state through a vertex list, reading and rewriting
the index selected by `get`/`put` (the source's iterator of `&mut usize`). -/
def runVerts (get : Vertex → Option ℕ) (put : Vertex → ℕ → Vertex)
    (st : SState) : List Vertex → SState × List Vertex
  | [] => (st, [])
  | v :: vs =>
    match get v with
    | none =>
      let r := runVerts get put st vs
      (r.1, v :: r.2)
    | some i =>
      let s := sub_step st i
      let r := runVerts get put s.1 vs
      (r.1, put v s.2 :: r.2)

/-- Thread the compaction state through a list of faces. -/
def runFacesList (get : Vertex → Option ℕ) (put : Vertex → ℕ → Vertex)
    (st : SState) : List (List Vertex) → SState × List (List Vertex)
  | [] => (st, [])
  | f :: fs =>
    let r1 := runVerts get put st f
    let r2 := runFacesList get put r1.1 fs
    (r2.1, r1.2 :: r2.2)

/-- Thread the compaction state through the whole face collection, in
`face_iter` order. -/
def runFaces (get : Vertex → Option ℕ) (put : Vertex → ℕ → Vertex)
    (st : SState) (fs : Faces) : SState × Faces :=
  let r1 := runFacesList get put st fs.tri_faces
  let r2 := runFacesList get put r1.1 fs.quad_faces
  let r3 := runFacesList get put r2.1 fs.other_faces
  (r3.1, ⟨r1.2, r2.2, r3.2⟩)

def getPos (v : Vertex) : Option ℕ := some v.pos

def putPos (v : Vertex) (k : ℕ) : Vertex := { v with pos := k }

def getUv (v : Vertex) : Option ℕ := v.uv

def putUv (v : Vertex) (k : ℕ) : Vertex := { v with uv := some k }

def getNor (v : Vertex) : Option ℕ := v.nor

def putNor (v : Vertex) (k : ℕ) : Vertex := { v with nor := some k }

/-- `remove_unused_attrs`: for each attribute kind in turn, renumber the
referenced indices in order of first appearance, rewrite the faces, and keep
only the referenced attribute entries in the new order. -/
def remove_unused_attrs (mesh : PolygonMesh) : PolygonMesh :=
  let rP := runFaces getPos putPos ⟨[], List.replicate mesh.positions.length none⟩ mesh.faces
  let positions := rP.1.new2old.map fun i => mesh.positions.getD i default
  let rU := runFaces getUv putUv ⟨[], List.replicate mesh.uv_coords.length none⟩ rP.2
  let uv_coords := rU.1.new2old.map fun i => mesh.uv_coords.getD i default
  let rN := runFaces getNor putNor ⟨[], List.replicate mesh.normals.length none⟩ rU.2
  let normals := rN.1.new2old.map fun i => mesh.normals.getD i default
  ⟨positions, uv_coords, normals, rN.2⟩

/-! ## Specification-side helpers for the compaction claims -/

/-- Deduplicate keeping first appearances, with an accumulator (mirrors the
growth of `new2old`). -/
def faGo (acc : List ℕ) : List ℕ → List ℕ
  | [] => acc
  | x :: xs => faGo (if x ∈ acc then acc else acc ++ [x]) xs

/-- The distinct values of a list, in order of first appearance. -/
def firstAppear (l : List ℕ) : List ℕ := faGo [] l

/-- Index of the first occurrence of a value in a list. -/
def idxOf (l : List ℕ) (x : ℕ) : ℕ :=
  match l with
  | [] => 0
  | y :: ys => if y = x then 0 else idxOf ys x + 1

/-- The indices selected by `get` in a vertex list, in traversal order. -/
def flatVerts (get : Vertex → Option ℕ) (vs : List Vertex) : List ℕ :=
  vs.filterMap get

/-- The indices selected by `get` in a face list, in traversal order. -/
def flatFacesList (get : Vertex → Option ℕ) (fs : List (List Vertex)) : List ℕ :=
  (fs.map (flatVerts get)).flatten

/-- The indices selected by `get` in the whole face collection, in traversal
order. -/
def flatFaces (get : Vertex → Option ℕ) (fs : Faces) : List ℕ :=
  flatFacesList get fs.tri_faces ++ flatFacesList get fs.quad_faces ++
    flatFacesList get fs.other_faces

/-- Rewrite a vertex's position index through the translation `F`. -/
def rwPos (F : List ℕ) (v : Vertex) : Vertex := { v with pos := idxOf F v.pos }

/-- Rewrite a vertex's uv index (when present) through the translation `F`. -/
def rwUv (F : List ℕ) (v : Vertex) : Vertex := { v with uv := v.uv.map (idxOf F) }

/-- Rewrite a vertex's normal index (when present) through the translation
`F`. -/
def rwNor (F : List ℕ) (v : Vertex) : Vertex :=
  { v with nor := v.nor.map (idxOf F) }

/-- Rewrite all three indices of a vertex at once. -/
def combRw (FP FU FN : List ℕ) (v : Vertex) : Vertex :=
  ⟨idxOf FP v.pos, v.uv.map (idxOf FU), v.nor.map (idxOf FN)⟩

/-- Every face-referenced index of the mesh is in range of its attribute
array. -/
def inRange (mesh : PolygonMesh) : Prop :=
  (∀ i ∈ flatFaces getPos mesh.faces, i < mesh.positions.length) ∧
  (∀ i ∈ flatFaces getUv mesh.faces, i < mesh.uv_coords.length) ∧
  (∀ i ∈ flatFaces getNor mesh.faces, i < mesh.normals.length)

instance : DecidablePred inRange := fun mesh => by
  unfold inRange
  infer_instance

/-- The invariant tying a compaction state to the list `acc` of old indices
seen so far (in order of first appearance): `new2old` is exactly `acc`, and
`old2new` translates exactly the members of `acc` to their position in
`acc`. -/
def SInv (L : ℕ) (acc : List ℕ) (st : SState) : Prop :=
  st.new2old = acc ∧ st.old2new.length = L ∧
  (∀ v, st.old2new.getD v none =
    if v ∈ acc then some (idxOf acc v) else none) ∧
  (∀ v ∈ acc, v < L)

/-! ## Curve data model -/

/-- A parametric curve over a `d`-dimensional Euclidean space: point
evaluation and the first two derivatives (the `ParametricCurve` capability of
the source, which is generic over the concrete dimensionality). -/
structure PCurve (d : ℕ) where
  subs : ℝ → Fin d → ℝ
  der : ℝ → Fin d → ℝ
  der2 : ℝ → Fin d → ℝ

/-- Euclidean dot product. -/
def dotR {d : ℕ} (v w : Fin d → ℝ) : ℝ := ∑ i, v i * w i

/-- Squared magnitude (`magnitude2`). -/
def magnitude2 {d : ℕ} (v : Fin d → ℝ) : ℝ := dotR v v

/-- Magnitude. -/
noncomputable def magnitude {d : ℕ} (v : Fin d → ℝ) : ℝ :=
  Real.sqrt (magnitude2 v)

/-- Euclidean distance of two points. -/
noncomputable def distR {d : ℕ} (p q : Fin d → ℝ) : ℝ :=
  magnitude fun i => p i - q i

/-- Modelled from the spec: `so_small` holds when the magnitude is below the
global epsilon (the `Tolerance` trait lives in truck-base, outside the given
sources; following the spec's design notes the epsilon is passed as an
explicit configuration value `TOL`). -/
def so_small (TOL x : ℝ) : Prop := |x| < TOL

/-- Modelled from the spec: `near` holds when the distance is below the global
epsilon. -/
def nearR {d : ℕ} (TOL : ℝ) (p q : Fin d → ℝ) : Prop := distR p q < TOL

noncomputable instance {d : ℕ} (TOL : ℝ) (p q : Fin d → ℝ) :
    Decidable (nearR TOL p q) := by
  unfold nearR
  infer_instance

/-- The Newton residual `g(t) = der(t) . (subs(t) - point)` of
`search_nearest_parameter`. -/
def snpF {d : ℕ} (curve : PCurve d) (point : Fin d → ℝ) (t : ℝ) : ℝ :=
  dotR (curve.der t) fun i => curve.subs t i - point i

/-- The Newton derivative
`g'(t) = der2(t) . (subs(t) - point) + |der(t)|^2`. -/
def snpFprime {d : ℕ} (curve : PCurve d) (point : Fin d → ℝ) (t : ℝ) : ℝ :=
  (dotR (curve.der2 t) fun i => curve.subs t i - point i) + magnitude2 (curve.der t)

/-- The stopping condition of `search_nearest_parameter`:
`|g(t)| < TOL * min(|der(t)|, 1)`, or `g'(t)` is `so_small`. -/
def newtonCond {d : ℕ} (TOL : ℝ) (curve : PCurve d) (point : Fin d → ℝ)
    (t : ℝ) : Prop :=
  |snpF curve point t| < TOL * min (magnitude (curve.der t)) 1 ∨
    so_small TOL (snpFprime curve point t)

noncomputable instance {d : ℕ} (TOL : ℝ) (curve : PCurve d)
    (point : Fin d → ℝ) (t : ℝ) : Decidable (newtonCond TOL curve point t) := by
  unfold newtonCond so_small
  infer_instance

/-- The Newton update `t - g(t) / g'(t)`. -/
noncomputable def newtonStep {d : ℕ} (curve : PCurve d) (point : Fin d → ℝ)
    (t : ℝ) : ℝ :=
  t - snpF curve point t / snpFprime curve point t

/-- `search_nearest_parameter`: Newton iteration on `g`, stopping at the
residual test or a `so_small` second-order term, failing when the trials
budget is exhausted. -/
noncomputable def search_nearest_parameter {d : ℕ} (TOL : ℝ) (curve : PCurve d)
    (point : Fin d → ℝ) : ℕ → ℝ → Option ℝ
  | trials, hint =>
    if newtonCond TOL curve point hint then some hint
    else
      match trials with
      | 0 => none
      | n + 1 => search_nearest_parameter TOL curve point n (newtonStep curve point hint)

/-- `search_parameter`: the nearest-parameter search followed by the on-curve
check `near`. -/
noncomputable def search_parameter {d : ℕ} (TOL : ℝ) (curve : PCurve d)
    (point : Fin d → ℝ) (trials : ℕ) (hint : ℝ) : Option ℝ :=
  match search_nearest_parameter TOL curve point trials hint with
  | some t => if nearR TOL point (curve.subs t) then some t else none
  | none => none

/-! ## Curve tessellation (`parameter_division`)

The source recursion has no termination guarantee, so it is modelled with an
explicit recursion-depth fuel; a run of the source that terminates corresponds
to a `some` result for a large enough fuel.  The random jitter draw
(`rand::random::<f64>()`, uniform on `[0,1)`) is modelled by threading an
abstract generator state through the recursion. -/

/-- `sub_parameter_division` with fuel and a threaded random generator.
`next` produces one draw and the successor state. -/
noncomputable def sub_parameter_division {R : Type} (next : R → ℝ × R) {d : ℕ}
    (curve : PCurve d) (tol : ℝ) :
    ℕ → R → ℝ × ℝ → ((Fin d → ℝ) × (Fin d → ℝ)) →
      Option (R × List ℝ × List (Fin d → ℝ))
  | 0, _, _, _ => none
  | fuel + 1, rng, range, ends =>
    let x := (next rng).1
    let rng1 := (next rng).2
    let p := 0.5 + (0.2 * x - 0.1)
    let t := range.1 * (1 - p) + range.2 * p
    let midpt := fun i => ends.1 i + (ends.2 i - ends.1 i) * p
    if distR (curve.subs t) midpt < tol then
      some (rng1, [range.1, range.2], [ends.1, ends.2])
    else
      let m := (range.1 + range.2) / 2
      match sub_parameter_division next curve tol fuel rng1 (range.1, m)
          (curve.subs range.1, curve.subs m) with
      | none => none
      | some (rng2, params, pts) =>
        match sub_parameter_division next curve tol fuel rng2 (m, range.2)
            (curve.subs m, curve.subs range.2) with
        | none => none
        | some (rng3, params2, pts2) =>
          some (rng3, params.dropLast ++ params2, pts.dropLast ++ pts2)

/-- `parameter_division`: seed the recursion with the curve points at the two
range ends. -/
noncomputable def parameter_division {R : Type} (next : R → ℝ × R) {d : ℕ}
    (curve : PCurve d) (tol : ℝ) (fuel : ℕ) (rng : R) (range : ℝ × ℝ) :
    Option (R × List ℝ × List (Fin d → ℝ)) :=
  sub_parameter_division next curve tol fuel rng range
    (curve.subs range.1, curve.subs range.2)

/-! ## Specification-side definitions used to state (or refute) the claims -/

/-- A vertex with only a position index. -/
def vtx (p : ℕ) : Vertex := ⟨p, none, none⟩

/-- A constant one-dimensional curve, used as a concrete evaluation
instance. -/
noncomputable def constC : PCurve 1 := ⟨fun _ _ => 0, fun _ _ => 0, fun _ _ => 0⟩

/-- A curve that coincides with the origin everywhere except for a spike at
parameter `9/10`; its chord over `[0,1]` passes the single-sample flatness
test while the curve strays far from the chord. -/
noncomputable def spikeCurve : PCurve 1 :=
  ⟨fun t => if t = 9 / 10 then (fun _ => 1000) else (fun _ => 0),
    fun _ _ => 0, fun _ _ => 0⟩

/-- A degenerate random generator whose every draw is `1/2` (giving the
jittered split fraction `p = 1/2` exactly). -/
noncomputable def halfStep : Unit → ℝ × Unit := fun _ => (1 / 2, ())

/-- The quadrangle classification exactly as the claim words it. -/
def quadClassSpec (v0 v1 v2 v3 : Vertex) : QuadrangleType :=
  if v0.pos = v2.pos ∨ v1.pos = v3.pos ∨ (v0.pos = v1.pos ∧ v2.pos = v3.pos) ∨
      (v1.pos = v2.pos ∧ v3.pos = v0.pos) then
    QuadrangleType.TotallyDegenerate
  else if v0.pos = v1.pos ∨ v1.pos = v2.pos then
    QuadrangleType.Triangle [v0, v2, v3]
  else if v2.pos = v3.pos ∨ v3.pos = v0.pos then
    QuadrangleType.Triangle [v0, v1, v2]
  else
    QuadrangleType.NonDegenerate

/-- No two slots of the polygon share a position index. -/
def nodupPos (poly : List Vertex) : Prop :=
  ∀ i j, i < j → j < poly.length → posAt poly i ≠ posAt poly j

/-- The position-normalization formula exactly as the claim words it:
`(p_k - center_k) / max (extent_k / 2) 1`. -/
def claimNormalized (positions : List Point3) : List Point3 :=
  positions.map fun position => fun k =>
    (position k - bboxCenter positions k) / max (bboxDiagonal positions k / 2) 1

/-- The chord-approximation property exactly as the claim words it: every
true-curve point sampled between two consecutive returned parameters is within
`tol` of the corresponding point of the returned chord. -/
def chordApproxClaim {d : ℕ} (curve : PCurve d) (tol : ℝ) (params : List ℝ)
    (pts : List (Fin d → ℝ)) : Prop :=
  ∀ i a b pa pb, params.get? i = some a → params.get? (i + 1) = some b →
    pts.get? i = some pa → pts.get? (i + 1) = some pb →
    ∀ t, a ≤ t → t ≤ b →
      distR (curve.subs t)
        (fun k => pa k + (pb k - pa k) * ((t - a) / (b - a))) < tol

/-! ## Degenerate-face lemmas -/

theorem firstRepeat_bounds {poly : List Vertex} {i j : ℕ}
    (h : firstRepeat poly = some (i, j)) : i < j ∧ j < poly.length := by
  obtain ⟨a, -, ha⟩ := List.exists_of_findSome?_eq_some h
  obtain ⟨j', hfind, heq⟩ := Option.map_eq_some'.1 ha
  cases heq
  have hj := List.find?_some hfind
  have hmem := List.mem_range.1 (List.mem_of_find?_eq_some hfind)
  simp only [Bool.and_eq_true, decide_eq_true_eq] at hj
  exact ⟨hj.1, hmem⟩

theorem split_eq_none {poly : List Vertex} (h : firstRepeat poly = none) :
    split_into_nondegenerate poly = [poly] := by
  rw [split_into_nondegenerate.eq_def]
  split <;> simp_all

theorem split_eq_some {poly : List Vertex} {i j : ℕ}
    (h : firstRepeat poly = some (i, j)) :
    split_into_nondegenerate poly =
      split_into_nondegenerate
          ((List.range (j - i)).map fun k => poly.getD (k + i) default) ++
        split_into_nondegenerate
          ((List.range' (j - i) (poly.length - (j - i))).map fun k =>
            poly.getD ((k + i) % poly.length) default) := by
  rw [split_into_nondegenerate.eq_def]
  split <;> simp_all

theorem firstRepeat_none_iff {poly : List Vertex} :
    firstRepeat poly = none ↔ nodupPos poly := by
  unfold firstRepeat nodupPos
  rw [List.findSome?_eq_none_iff]
  constructor
  · intro h i j hij hj hEq
    have hmem : i ∈ List.range poly.length := List.mem_range.2 (lt_trans hij hj)
    have hi := h i hmem
    rw [Option.map_eq_none', List.find?_eq_none] at hi
    have := hi j (List.mem_range.2 hj)
    simp [hij, hEq] at this
  · intro h x hx
    rw [Option.map_eq_none', List.find?_eq_none]
    intro j hj
    simp only [Bool.and_eq_true, decide_eq_true_eq, not_and]
    intro hij
    exact h x j hij (List.mem_range.1 hj)

theorem split_nodupPos (poly : List Vertex) :
    ∀ q ∈ split_into_nondegenerate poly, nodupPos q := by
  induction poly using split_into_nondegenerate.induct with
  | case1 poly h =>
    rw [split_eq_none h]
    intro q hq
    rw [List.mem_singleton] at hq
    subst hq
    exact firstRepeat_none_iff.1 h
  | case2 poly i j h ih1 ih2 =>
    rw [split_eq_some h]
    intro q hq
    rcases List.mem_append.1 hq with hq | hq
    · exact ih1 q hq
    · exact ih2 q hq

/-- Claim C5: `remove_degenerate_faces` drops a triangle if and only if two of
its three position indices are equal, and classifies every quadrangle exactly
as the claim's case analysis does; in particular, for distinct `p`, `q`, `r`,
the triangle `[p,p,q]` is removed and the quadrangle `[p,p,q,r]` becomes the
triangle `[p,q,r]`. -/
theorem claim_C5 :
    (∀ v0 v1 v2 : Vertex, degenerate_triangle [v0, v1, v2] = true ↔
      (v0.pos = v1.pos ∨ v0.pos = v2.pos ∨ v1.pos = v2.pos)) ∧
    (∀ v0 v1 v2 v3 : Vertex,
      degenerate_quadrangle [v0, v1, v2, v3] = quadClassSpec v0 v1 v2 v3) ∧
    (∀ (P : List Point3) (U : List Vector2) (N : List Vector3) (t : List Vertex),
      t.length = 3 →
      (remove_degenerate_faces ⟨P, U, N, ⟨[t], [], []⟩⟩).faces =
        if degenerate_triangle t then ⟨[], [], []⟩ else ⟨[t], [], []⟩) ∧
    (∀ p q r : ℕ, p ≠ q → q ≠ r → p ≠ r →
      (remove_degenerate_faces
          ⟨[], [], [], ⟨[[vtx p, vtx p, vtx q]], [], []⟩⟩).faces = ⟨[], [], []⟩ ∧
      (remove_degenerate_faces
          ⟨[], [], [], ⟨[], [[vtx p, vtx p, vtx q, vtx r]], []⟩⟩).faces =
        ⟨[[vtx p, vtx q, vtx r]], [], []⟩) := by
  refine ⟨?_, ?_, ?_, ?_⟩
  · intro v0 v1 v2
    simp only [degenerate_triangle, List.getD_cons_zero, List.getD_cons_succ,
      Bool.or_eq_true, beq_iff_eq]
    constructor
    · rintro ((h | h) | h)
      · exact Or.inl h
      · exact Or.inr (Or.inr h)
      · exact Or.inr (Or.inl h.symm)
    · rintro (h | h | h)
      · exact Or.inl (Or.inl h)
      · exact Or.inr h.symm
      · exact Or.inl (Or.inr h)
  · intro v0 v1 v2 v3
    simp only [degenerate_quadrangle, quadClassSpec, List.getD_cons_zero,
      List.getD_cons_succ]
    split_ifs <;> first | rfl | tauto
  · intro P U N t ht
    by_cases h : degenerate_triangle t
    · simp [remove_degenerate_faces, h]
    · simp [remove_degenerate_faces, h, Faces.push, ht]
  · intro p q r hpq hqr hpr
    constructor
    · have hdeg : degenerate_triangle [vtx p, vtx p, vtx q] = true := by
        simp [degenerate_triangle, vtx]
      simp [remove_degenerate_faces, hdeg]
    · have hquad : degenerate_quadrangle [vtx p, vtx p, vtx q, vtx r] =
          QuadrangleType.Triangle [vtx p, vtx q, vtx r] := by
        simp [degenerate_quadrangle, vtx, hpq, hqr, hpr, Ne.symm hpr]
      simp [remove_degenerate_faces, hquad, Faces.push]

/-- Claim C5 witness: the general statements instantiated at the concrete
distinct indices 0, 1, 2. -/
theorem claim_C5_witness :
    ((0 : ℕ) ≠ 1 ∧ (1 : ℕ) ≠ 2 ∧ (0 : ℕ) ≠ 2) ∧
    (remove_degenerate_faces
        ⟨[], [], [], ⟨[[vtx 0, vtx 0, vtx 1]], [], []⟩⟩).faces = ⟨[], [], []⟩ ∧
    (remove_degenerate_faces
        ⟨[], [], [], ⟨[], [[vtx 0, vtx 0, vtx 1, vtx 2]], []⟩⟩).faces =
      ⟨[[vtx 0, vtx 1, vtx 2]], [], []⟩ := by
  refine ⟨⟨by decide, by decide, by decide⟩, ?_⟩
  exact claim_C5.2.2.2 0 1 2 (by decide) (by decide) (by decide)

/-- Claim C10: `split_into_nondegenerate` can emit polygons of fewer than
three vertices — on `[p,p,q,r,s]` it emits a one-vertex polygon, which
`remove_degenerate_faces` then stores as a general polygon of arity 1 — even
though every emitted polygon has no repeated position index. -/
theorem claim_C10 :
    (split_into_nondegenerate [vtx 0, vtx 0, vtx 1, vtx 2, vtx 3] =
      [[vtx 0], [vtx 0, vtx 1, vtx 2, vtx 3]]) ∧
    ((remove_degenerate_faces
        ⟨[], [], [],
          ⟨[], [], [[vtx 0, vtx 0, vtx 1, vtx 2, vtx 3]]⟩⟩).faces.other_faces =
      [[vtx 0]] ∧ ([vtx 0] : List Vertex).length < 3) ∧
    (∀ poly : List Vertex, ∀ q ∈ split_into_nondegenerate poly, nodupPos q) := by
  have hsplit : split_into_nondegenerate [vtx 0, vtx 0, vtx 1, vtx 2, vtx 3] =
      [[vtx 0], [vtx 0, vtx 1, vtx 2, vtx 3]] := by
    rw [split_eq_some (i := 0) (j := 1) (by decide)]
    have h1 : ((List.range (1 - 0)).map fun k =>
        [vtx 0, vtx 0, vtx 1, vtx 2, vtx 3].getD (k + 0) default) = [vtx 0] := by
      decide
    have h2 : ((List.range' (1 - 0)
        ([vtx 0, vtx 0, vtx 1, vtx 2, vtx 3].length - (1 - 0))).map fun k =>
        [vtx 0, vtx 0, vtx 1, vtx 2, vtx 3].getD
          ((k + 0) % [vtx 0, vtx 0, vtx 1, vtx 2, vtx 3].length) default) =
        [vtx 0, vtx 1, vtx 2, vtx 3] := by
      decide
    rw [h1, h2, split_eq_none (by decide), split_eq_none (by decide)]
    rfl
  refine ⟨hsplit, ⟨?_, by decide⟩, split_nodupPos⟩
  simp [remove_degenerate_faces, hsplit, Faces.extendF, Faces.push]

/-- Claim C10 witness: the no-repeated-index guarantee applied to a concrete
polygon and a concrete member of its split. -/
theorem claim_C10_witness :
    [vtx 0, vtx 1] ∈ split_into_nondegenerate [vtx 0, vtx 1] ∧
      nodupPos [vtx 0, vtx 1] := by
  have hmem : [vtx 0, vtx 1] ∈ split_into_nondegenerate [vtx 0, vtx 1] := by
    rw [split_eq_none (by decide)]
    exact List.mem_singleton.2 rfl
  exact ⟨hmem, claim_C10.2.2 [vtx 0, vtx 1] [vtx 0, vtx 1] hmem⟩

/-! ## Welding lemmas -/

theorem mapLookup_cons_self {n : ℕ} (m : List ((Fin n → ℤ) × ℕ))
    (v : Fin n → ℤ) (k : ℕ) : mapLookup ((v, k) :: m) v = some k := by
  simp [mapLookup, List.find?]

theorem mapLookup_cons_ne {n : ℕ} (m : List ((Fin n → ℤ) × ℕ))
    (w v : Fin n → ℤ) (k : ℕ) (h : w ≠ v) :
    mapLookup ((w, k) :: m) v = mapLookup m v := by
  simp [mapLookup, List.find?, h]

theorem sub_put_go_spec {n : ℕ} (A : List (Fin n → ℚ)) (tol : ℚ) :
    ∀ (rest : List (Fin n → ℚ)) (i : ℕ) (m : List ((Fin n → ℤ) × ℕ)),
    rest = A.drop i →
    (∀ v k, mapLookup m v = some k →
      k < i ∧ cellAt A tol k = v ∧ ∀ j < k, cellAt A tol j ≠ v) →
    (∀ v, mapLookup m v = none → ∀ j < i, cellAt A tol j ≠ v) →
    (sub_put_go tol rest i m).length = rest.length ∧
    ∀ t < rest.length,
      (sub_put_go tol rest i m).getD t 0 ≤ i + t ∧
      cellAt A tol ((sub_put_go tol rest i m).getD t 0) = cellAt A tol (i + t) ∧
      ∀ j < (sub_put_go tol rest i m).getD t 0,
        cellAt A tol j ≠ cellAt A tol (i + t) := by
  intro rest
  induction rest with
  | nil =>
    intro i m _ _ _
    exact ⟨rfl, fun t ht => absurd ht (by simp)⟩
  | cons a rest' ih =>
    intro i m hdrop hsome hnone
    have hhead : A[i]? = some a := by
      have h0 : (A.drop i).head? = some a := by rw [← hdrop]; rfl
      rwa [List.head?_drop] at h0
    have ha : A.getD i default = a := by
      rw [List.getD_eq_getElem?_getD, hhead]; rfl
    have hcellA : cellOf tol a = cellAt A tol i := by rw [cellAt, ha]
    have hrest' : rest' = A.drop (i + 1) := by
      have := congrArg List.tail hdrop
      rwa [List.tail_drop] at this
    cases hlk : mapLookup m (cellOf tol a) with
    | some k =>
      obtain ⟨hki, hkcell, hkmin⟩ := hsome _ _ hlk
      have ihstep := ih (i + 1) m hrest'
        (fun v k' h => by
          obtain ⟨h1, h2, h3⟩ := hsome v k' h
          exact ⟨by omega, h2, h3⟩)
        (fun v h j hj => by
          rcases Nat.lt_succ_iff_lt_or_eq.1 hj with hj' | hj'
          · exact hnone v h j hj'
          · subst hj'
            intro hEq
            rw [← hEq, ← hcellA, hlk] at h
            exact Option.noConfusion h)
      refine ⟨?_, ?_⟩
      · simp only [sub_put_go, hlk, List.length_cons, ihstep.1]
      · intro t ht
        simp only [sub_put_go, hlk]
        cases t with
        | zero =>
          rw [hcellA] at hkcell hkmin
          exact ⟨by simpa using Nat.le_of_lt hki, by simpa using hkcell,
            by simpa using hkmin⟩
        | succ t' =>
          have hlt : t' < rest'.length := by simpa using ht
          have := ihstep.2 t' hlt
          simp only [List.getD_cons_succ]
          have harith : i + 1 + t' = i + (t' + 1) := by omega
          rw [harith] at this
          exact this
    | none =>
      have hprev : ∀ j < i, cellAt A tol j ≠ cellOf tol a := hnone _ hlk
      have ihstep := ih (i + 1) ((cellOf tol a, i) :: m) hrest'
        (fun v k' h => by
          by_cases hv : cellOf tol a = v
          · subst hv
            rw [mapLookup_cons_self] at h
            have hk' : k' = i := by simpa using h.symm
            subst hk'
            exact ⟨Nat.lt_succ_self _, hcellA.symm, hprev⟩
          · rw [mapLookup_cons_ne m _ _ _ hv] at h
            obtain ⟨h1, h2, h3⟩ := hsome v k' h
            exact ⟨by omega, h2, h3⟩)
        (fun v h j hj => by
          by_cases hv : cellOf tol a = v
          · subst hv
            rw [mapLookup_cons_self] at h
            exact Option.noConfusion h
          · rw [mapLookup_cons_ne m _ _ _ hv] at h
            rcases Nat.lt_succ_iff_lt_or_eq.1 hj with hj' | hj'
            · exact hnone v h j hj'
            · subst hj'
              rw [← hcellA]
              exact fun hEq => hv hEq)
      refine ⟨?_, ?_⟩
      · simp only [sub_put_go, hlk, List.length_cons, ihstep.1]
      · intro t ht
        simp only [sub_put_go, hlk]
        cases t with
        | zero =>
          refine ⟨by simp, by simp [hcellA], ?_⟩
          simp only [List.getD_cons_zero, Nat.add_zero]
          intro j hj hEq
          exact hprev j hj (hEq.trans hcellA.symm)
        | succ t' =>
          have hlt : t' < rest'.length := by simpa using ht
          have := ihstep.2 t' hlt
          simp only [List.getD_cons_succ]
          have harith : i + 1 + t' = i + (t' + 1) := by omega
          rw [harith] at this
          exact this

/-- Claim C7: the welding remap maps every index to the first (smallest) index
whose value landed in the same grid cell (quantised per axis by the integer
cast of `(value + tol) / (2 * tol)`); consequently two values within `tol` on
every axis that share a grid cell receive the same output index. -/
theorem claim_C7 {n : ℕ} (attrs : List (Fin n → ℚ)) (tol : ℚ) :
    (sub_put_together_same_attrs attrs tol).length = attrs.length ∧
    (∀ i < attrs.length,
      (sub_put_together_same_attrs attrs tol).getD i 0 ≤ i ∧
      cellAt attrs tol ((sub_put_together_same_attrs attrs tol).getD i 0) =
        cellAt attrs tol i ∧
      ∀ j < (sub_put_together_same_attrs attrs tol).getD i 0,
        cellAt attrs tol j ≠ cellAt attrs tol i) ∧
    (∀ i j, i < attrs.length → j < attrs.length →
      (∀ k, |attrs.getD i default k - attrs.getD j default k| ≤ tol) →
      cellAt attrs tol i = cellAt attrs tol j →
      (sub_put_together_same_attrs attrs tol).getD i 0 =
        (sub_put_together_same_attrs attrs tol).getD j 0) := by
  have base := sub_put_go_spec attrs tol attrs 0 [] rfl
    (fun v k h => by simp [mapLookup] at h)
    (fun v h j hj => absurd hj (by omega))
  rw [sub_put_together_same_attrs]
  have hlen := base.1
  have hchar := base.2
  refine ⟨hlen, fun i hi => by simpa using hchar i hi, ?_⟩
  intro i j hi hj _ hcell
  obtain ⟨hri, hci, hmi⟩ := hchar i hi
  obtain ⟨hrj, hcj, hmj⟩ := hchar j hj
  simp only [Nat.zero_add] at hri hci hmi hrj hcj hmj
  set ri := (sub_put_go tol attrs 0 []).getD i 0 with hriDef
  set rj := (sub_put_go tol attrs 0 []).getD j 0 with hrjDef
  rcases Nat.lt_trichotomy ri rj with hlt | heq | hgt
  · exact absurd (hci.trans hcell) (hmj ri hlt)
  · exact heq
  · exact absurd (hcj.trans hcell.symm) (hmi rj hgt)

theorem truncInt_of_nonneg {q : ℚ} (h : 0 ≤ q) : truncInt q = ⌊q⌋ := if_pos h

theorem getD_map_of_lt {α β : Type} [Inhabited α] (l : List α) (f : α → β)
    (dflt : β) {i : ℕ} (h : i < l.length) :
    (l.map f).getD i dflt = f (l.getD i default) := by
  rw [List.getD_eq_getElem?_getD, List.getD_eq_getElem?_getD,
    List.getElem?_map, List.getElem?_eq_getElem h]
  rfl

/-- Claim C7 witness: two values within `tol = 1` on every axis and in the same
grid cell receive the same output index. -/
theorem claim_C7_witness :
    ((∀ k, |(([![0,0,0], ![(1:ℚ)/4,0,0]] : List Point3).getD 0 default) k -
        (([![0,0,0], ![(1:ℚ)/4,0,0]] : List Point3).getD 1 default) k| ≤ 1) ∧
      cellAt ([![0,0,0], ![(1:ℚ)/4,0,0]] : List Point3) 1 0 =
        cellAt ([![0,0,0], ![(1:ℚ)/4,0,0]] : List Point3) 1 1) ∧
    (sub_put_together_same_attrs ([![0,0,0], ![(1:ℚ)/4,0,0]] : List Point3) 1).getD 0 0 =
      (sub_put_together_same_attrs ([![0,0,0], ![(1:ℚ)/4,0,0]] : List Point3) 1).getD 1 0 := by
  have habs : ∀ k, |(([![0,0,0], ![(1:ℚ)/4,0,0]] : List Point3).getD 0 default) k -
      (([![0,0,0], ![(1:ℚ)/4,0,0]] : List Point3).getD 1 default) k| ≤ 1 := by
    intro k
    fin_cases k <;> simp [abs_le] <;> norm_num
  have hcell : cellAt ([![0,0,0], ![(1:ℚ)/4,0,0]] : List Point3) 1 0 =
      cellAt ([![0,0,0], ![(1:ℚ)/4,0,0]] : List Point3) 1 1 := by
    funext k
    fin_cases k <;>
      simp only [cellAt, cellOf, cast_int, List.getD_cons_zero, List.getD_cons_succ] <;>
      rw [truncInt_of_nonneg (by norm_num), truncInt_of_nonneg (by norm_num)] <;>
      norm_num
  exact ⟨⟨habs, hcell⟩,
    (claim_C7 ([![0,0,0], ![(1:ℚ)/4,0,0]] : List Point3) 1).2.2 0 1
      (by norm_num) (by norm_num) habs hcell⟩

theorem mapVerts_mapVerts (g f : Vertex → Vertex) (fs : Faces) :
    mapVerts g (mapVerts f fs) = mapVerts (fun v => g (f v)) fs := by
  simp [mapVerts, List.map_map, Function.comp_def]

/-- Claim C1 (amended): `put_together_same_attrs` welds positions on
coordinates normalized per axis as `(p_k - center_k) / max (extent_k / 2)
(1 / 2)` — the extent is clamped to a minimum of 1 *before* halving — while uv
coordinates and normals are welded on their raw values and the attribute
arrays themselves are left unchanged. -/
theorem claim_C1 (mesh : PolygonMesh) (tol : ℚ) :
    (∀ i k, i < mesh.positions.length →
      (normalized_positions mesh.positions).getD i default k =
        (mesh.positions.getD i default k - bboxCenter mesh.positions k) /
          max (|bboxDiagonal mesh.positions k| / 2) (1 / 2)) ∧
    ((put_together_same_attrs mesh tol).positions = mesh.positions ∧
      (put_together_same_attrs mesh tol).uv_coords = mesh.uv_coords ∧
      (put_together_same_attrs mesh tol).normals = mesh.normals) ∧
    (put_together_same_attrs mesh tol).faces =
      mapVerts (fun v =>
        { pos := (sub_put_together_same_attrs
            (normalized_positions mesh.positions) tol).getD v.pos v.pos,
          uv := v.uv.map fun i =>
            (sub_put_together_same_attrs mesh.uv_coords tol).getD i i,
          nor := v.nor.map fun i =>
            (sub_put_together_same_attrs mesh.normals tol).getD i i })
        mesh.faces := by
  refine ⟨?_, ⟨rfl, rfl, rfl⟩, ?_⟩
  · intro i k hi
    rw [normalized_positions, getD_map_of_lt _ _ _ hi]
    have hpos : (0 : ℚ) < max |bboxDiagonal mesh.positions k| 1 :=
      lt_of_lt_of_le one_pos (le_max_right _ _)
    have hhalf : max (|bboxDiagonal mesh.positions k| / 2) ((1 : ℚ) / 2) =
        max |bboxDiagonal mesh.positions k| 1 / 2 := by
      rcases le_total |bboxDiagonal mesh.positions k| 1 with h | h
      · rw [max_eq_right h, max_eq_right (by linarith)]
      · rw [max_eq_left h, max_eq_left (by linarith)]
    rw [hhalf, div_div_eq_mul_div, mul_comm _ (2 : ℚ), ← mul_div_assoc]
  · show mapVerts _ (mapVerts _ (mapVerts _ mesh.faces)) = _
    rw [mapVerts_mapVerts, mapVerts_mapVerts]

/-- Claim C1 counterexample: for the mesh with positions `(0,0,0)` and
`(1,0,0)` (x-extent 1), the code's welded x-coordinate of the second position
is 1, not the claimed `(p_0 - center_0) / max (extent_0 / 2) 1 = 1/2`, and at
`tol = 1` the two coordinates produce different welding remaps. -/
theorem claim_C1_counterexample :
    (normalized_positions [![0,0,0], ![1,0,0]]).getD 1 default 0 = 1 ∧
    (claimNormalized [![0,0,0], ![1,0,0]]).getD 1 default 0 = 1 / 2 ∧
    sub_put_together_same_attrs (normalized_positions [![0,0,0], ![1,0,0]]) 1 =
      [0, 1] ∧
    sub_put_together_same_attrs (claimNormalized [![0,0,0], ![1,0,0]]) 1 =
      [0, 0] := by
  have hnorm : normalized_positions [![0,0,0], ![1,0,0]] = [![-1,0,0], ![1,0,0]] := by
    rw [normalized_positions]
    simp only [List.map_cons, List.map_nil]
    rw [show (fun k => 2 * ((![0,0,0] k - bboxCenter [![0,0,0], ![1,0,0]] k) /
        max |bboxDiagonal [![0,0,0], ![1,0,0]] k| 1)) = (![-1,0,0] : Point3) from by
      funext k
      fin_cases k <;> simp [bboxCenter, bboxDiagonal, bboxMin, bboxMax] <;> norm_num]
    rw [show (fun k => 2 * ((![1,0,0] k - bboxCenter [![0,0,0], ![1,0,0]] k) /
        max |bboxDiagonal [![0,0,0], ![1,0,0]] k| 1)) = (![1,0,0] : Point3) from by
      funext k
      fin_cases k <;> simp [bboxCenter, bboxDiagonal, bboxMin, bboxMax] <;> norm_num]
  have hclaim : claimNormalized [![0,0,0], ![1,0,0]] = [![-1/2,0,0], ![1/2,0,0]] := by
    rw [claimNormalized]
    simp only [List.map_cons, List.map_nil]
    rw [show (fun k => (![0,0,0] k - bboxCenter [![0,0,0], ![1,0,0]] k) /
        max (bboxDiagonal [![0,0,0], ![1,0,0]] k / 2) 1) = (![-1/2,0,0] : Point3) from by
      funext k
      fin_cases k <;> simp [bboxCenter, bboxDiagonal, bboxMin, bboxMax] <;> norm_num]
    rw [show (fun k => (![1,0,0] k - bboxCenter [![0,0,0], ![1,0,0]] k) /
        max (bboxDiagonal [![0,0,0], ![1,0,0]] k / 2) 1) = (![1/2,0,0] : Point3) from by
      funext k
      fin_cases k <;> simp [bboxCenter, bboxDiagonal, bboxMin, bboxMax] <;> norm_num]
  have hc0 : cellOf 1 (![-1,0,0] : Point3) = ![0,0,0] := by
    funext k
    fin_cases k <;> simp [cellOf, cast_int, truncInt] <;> norm_num
  have hc1 : cellOf 1 (![1,0,0] : Point3) = ![1,0,0] := by
    funext k
    fin_cases k <;> simp [cellOf, cast_int, truncInt] <;> norm_num
  have hd0 : cellOf 1 (![-1/2,0,0] : Point3) = ![0,0,0] := by
    funext k
    fin_cases k <;> simp [cellOf, cast_int, truncInt] <;> norm_num
  have hd1 : cellOf 1 (![1/2,0,0] : Point3) = ![0,0,0] := by
    funext k
    fin_cases k <;> simp [cellOf, cast_int, truncInt] <;> norm_num
  have hne : (![0,0,0] : Fin 3 → ℤ) ≠ ![1,0,0] := by
    intro h
    have := congrFun h 0
    simp at this
  refine ⟨?_, ?_, ?_, ?_⟩
  · rw [hnorm]
    norm_num
  · rw [hclaim]
    norm_num
  · rw [hnorm, sub_put_together_same_attrs]
    simp only [sub_put_go, hc0, hc1]
    rw [show mapLookup ([] : List ((Fin 3 → ℤ) × ℕ)) ![0,0,0] = none from rfl]
    simp only
    rw [mapLookup_cons_ne _ _ _ _ hne]
    rfl
  · rw [hclaim, sub_put_together_same_attrs]
    simp only [sub_put_go, hd0, hd1]
    rw [show mapLookup ([] : List ((Fin 3 → ℤ) × ℕ)) ![0,0,0] = none from rfl]
    simp only
    rw [mapLookup_cons_self]

/-- Claim C1 witness: the amended normalization formula evaluated on a concrete
mesh. -/
theorem claim_C1_witness :
    (0 < ([![0,0,0], ![1,0,0]] : List Point3).length) ∧
    (normalized_positions [![0,0,0], ![1,0,0]]).getD 0 default 0 =
      (([![0,0,0], ![1,0,0]] : List Point3).getD 0 default 0 -
          bboxCenter [![0,0,0], ![1,0,0]] 0) /
        max (|bboxDiagonal [![0,0,0], ![1,0,0]] 0| / 2) (1 / 2) :=
  ⟨by norm_num,
    (claim_C1 ⟨[![0,0,0], ![1,0,0]], [], [], ⟨[], [], []⟩⟩ 1).1 0 0 (by norm_num)⟩

/-! ## Newton-based solver lemmas -/

theorem snp_some_iff {d : ℕ} (TOL : ℝ) (curve : PCurve d) (point : Fin d → ℝ) :
    ∀ (trials : ℕ) (hint t : ℝ),
    search_nearest_parameter TOL curve point trials hint = some t ↔
      ∃ k, k ≤ trials ∧
        (∀ j < k, ¬ newtonCond TOL curve point
          ((newtonStep curve point)^[j] hint)) ∧
        newtonCond TOL curve point ((newtonStep curve point)^[k] hint) ∧
        t = (newtonStep curve point)^[k] hint := by
  intro trials
  induction trials with
  | zero =>
    intro hint t
    rw [search_nearest_parameter]
    by_cases hc : newtonCond TOL curve point hint
    · rw [if_pos hc]
      constructor
      · intro h
        exact ⟨0, le_refl 0, fun j hj => absurd hj (Nat.not_lt_zero j),
          by simpa using hc, by simpa using (Option.some.inj h).symm⟩
      · rintro ⟨k, hk, -, -, ht⟩
        have hk0 : k = 0 := Nat.le_zero.1 hk
        subst hk0
        simp only [Function.iterate_zero, id] at ht
        rw [ht]
    · rw [if_neg hc]
      constructor
      · intro h
        exact Option.noConfusion h
      · rintro ⟨k, hk, -, hcond, -⟩
        have hk0 : k = 0 := Nat.le_zero.1 hk
        subst hk0
        simp only [Function.iterate_zero, id] at hcond
        exact absurd hcond hc
  | succ n ih =>
    intro hint t
    rw [search_nearest_parameter]
    by_cases hc : newtonCond TOL curve point hint
    · rw [if_pos hc]
      constructor
      · intro h
        exact ⟨0, Nat.zero_le _, fun j hj => absurd hj (Nat.not_lt_zero j),
          by simpa using hc, by simpa using (Option.some.inj h).symm⟩
      · rintro ⟨k, hk, hmin, -, ht⟩
        cases k with
        | zero =>
          simp only [Function.iterate_zero, id] at ht
          rw [ht]
        | succ k' =>
          exact absurd (by simpa using hc) (by simpa using hmin 0 (Nat.succ_pos k'))
    · rw [if_neg hc]
      constructor
      · intro h
        obtain ⟨k, hk, hmin, hcond, ht⟩ := (ih (newtonStep curve point hint) t).1 h
        refine ⟨k + 1, by omega, ?_, ?_, ?_⟩
        · intro j hj
          cases j with
          | zero => simpa using hc
          | succ j' =>
            rw [Function.iterate_succ_apply]
            exact hmin j' (by omega)
        · rw [Function.iterate_succ_apply]
          exact hcond
        · rw [Function.iterate_succ_apply]
          exact ht
      · rintro ⟨k, hk, hmin, hcond, ht⟩
        cases k with
        | zero =>
          simp only [Function.iterate_zero, id] at hcond
          exact absurd hcond hc
        | succ k' =>
          apply (ih (newtonStep curve point hint) t).2
          refine ⟨k', by omega, ?_, ?_, ?_⟩
          · intro j hj
            have := hmin (j + 1) (by omega)
            rwa [Function.iterate_succ_apply] at this
          · rw [← Function.iterate_succ_apply]
            exact hcond
          · rw [← Function.iterate_succ_apply]
            exact ht

theorem snp_none_iff {d : ℕ} (TOL : ℝ) (curve : PCurve d) (point : Fin d → ℝ) :
    ∀ (trials : ℕ) (hint : ℝ),
    search_nearest_parameter TOL curve point trials hint = none ↔
      ∀ k ≤ trials, ¬ newtonCond TOL curve point
        ((newtonStep curve point)^[k] hint) := by
  intro trials
  induction trials with
  | zero =>
    intro hint
    rw [search_nearest_parameter]
    by_cases hc : newtonCond TOL curve point hint
    · rw [if_pos hc]
      constructor
      · intro h
        exact Option.noConfusion h
      · intro h
        exact absurd (by simpa using hc) (by simpa using h 0 (le_refl 0))
    · rw [if_neg hc]
      constructor
      · intro _ k hk
        have hk0 : k = 0 := Nat.le_zero.1 hk
        subst hk0
        simpa using hc
      · intro _
        rfl
  | succ n ih =>
    intro hint
    rw [search_nearest_parameter]
    by_cases hc : newtonCond TOL curve point hint
    · rw [if_pos hc]
      constructor
      · intro h
        exact Option.noConfusion h
      · intro h
        exact absurd (by simpa using hc) (by simpa using h 0 (Nat.zero_le _))
    · rw [if_neg hc]
      rw [ih (newtonStep curve point hint)]
      constructor
      · intro h k hk
        cases k with
        | zero => simpa using hc
        | succ k' =>
          rw [Function.iterate_succ_apply]
          exact h k' (by omega)
      · intro h k hk
        have := h (k + 1) (by omega)
        rwa [Function.iterate_succ_apply] at this

/-- Claim C3: `search_nearest_parameter` returns `some` exactly at the first
Newton iterate where `|g(t)| < TOL * min(|der(t)|, 1)` holds or `g'(t)` is
`so_small` (returning that iterate without dividing), and returns `none`
exactly when no iterate within the `trials` budget meets either condition. -/
theorem claim_C3 {d : ℕ} (TOL : ℝ) (curve : PCurve d) (point : Fin d → ℝ)
    (trials : ℕ) (hint : ℝ) :
    (∀ t, search_nearest_parameter TOL curve point trials hint = some t ↔
      ∃ k, k ≤ trials ∧
        (∀ j < k, ¬ newtonCond TOL curve point
          ((newtonStep curve point)^[j] hint)) ∧
        newtonCond TOL curve point ((newtonStep curve point)^[k] hint) ∧
        t = (newtonStep curve point)^[k] hint) ∧
    (search_nearest_parameter TOL curve point trials hint = none ↔
      ∀ k ≤ trials, ¬ newtonCond TOL curve point
        ((newtonStep curve point)^[k] hint)) :=
  ⟨fun t => snp_some_iff TOL curve point trials hint t,
    snp_none_iff TOL curve point trials hint⟩

/-- Claim C9: `search_parameter` succeeds exactly when the nearest-parameter
search succeeds and the found point is `near` the target; in particular it
returns `none` whenever the target is farther than the tolerance from every
curve point, even when the stationary-point search converges. -/
theorem claim_C9 {d : ℕ} (TOL : ℝ) (curve : PCurve d) (point : Fin d → ℝ)
    (trials : ℕ) (hint : ℝ) :
    (∀ t, search_parameter TOL curve point trials hint = some t ↔
      (search_nearest_parameter TOL curve point trials hint = some t ∧
        nearR TOL point (curve.subs t))) ∧
    ((∀ s, ¬ nearR TOL point (curve.subs s)) →
      search_parameter TOL curve point trials hint = none) := by
  constructor
  · intro t
    rw [search_parameter]
    cases h : search_nearest_parameter TOL curve point trials hint with
    | none =>
      constructor
      · intro h'
        exact Option.noConfusion h'
      · rintro ⟨h', -⟩
        exact Option.noConfusion h'
    | some u =>
      dsimp only
      by_cases hnear : nearR TOL point (curve.subs u)
      · rw [if_pos hnear]
        constructor
        · intro h'
          have : u = t := Option.some.inj h'
          subst this
          exact ⟨rfl, hnear⟩
        · rintro ⟨h', -⟩
          exact h'
      · rw [if_neg hnear]
        constructor
        · intro h'
          exact Option.noConfusion h'
        · rintro ⟨h', hn⟩
          have : u = t := Option.some.inj h'
          subst this
          exact absurd hn hnear
  · intro hfar
    rw [search_parameter]
    cases h : search_nearest_parameter TOL curve point trials hint with
    | none => rfl
    | some u =>
      dsimp only
      rw [if_neg (hfar u)]

/-- Claim C9 witness: a constant curve at the origin with target point at
distance 10 and tolerance 1 — the stationary-point search converges but
`search_parameter` returns `none`. -/
theorem claim_C9_witness :
    (∀ s, ¬ nearR 1 (fun _ => (10 : ℝ))
      ((⟨fun _ _ => 0, fun _ _ => 0, fun _ _ => 0⟩ : PCurve 1).subs s)) ∧
    search_parameter 1 (⟨fun _ _ => 0, fun _ _ => 0, fun _ _ => 0⟩ : PCurve 1)
      (fun _ => (10 : ℝ)) 5 0 = none := by
  have hfar : ∀ s, ¬ nearR 1 (fun _ => (10 : ℝ))
      ((⟨fun _ _ => 0, fun _ _ => 0, fun _ _ => 0⟩ : PCurve 1).subs s) := by
    intro s
    unfold nearR distR magnitude magnitude2 dotR
    rw [show ∑ i : Fin 1, ((fun _ => (10:ℝ)) i - 0) * ((fun _ => (10:ℝ)) i - 0)
        = 100 by simp; norm_num]
    rw [show (100 : ℝ) = 10 ^ 2 by norm_num, Real.sqrt_sq (by norm_num : (0:ℝ) ≤ 10)]
    norm_num
  exact ⟨hfar,
    (claim_C9 1 (⟨fun _ _ => 0, fun _ _ => 0, fun _ _ => 0⟩ : PCurve 1)
      (fun _ => (10 : ℝ)) 5 0).2 hfar⟩

/-! ## Tessellation lemmas -/

theorem dropLast_append_of_seam {α : Type} {l1 l2 : List α} (hne : l1 ≠ [])
    (hseam : l1.getLast? = l2.head?) : l1.dropLast ++ l2 = l1 ++ l2.tail := by
  cases l2 with
  | nil =>
    rw [List.getLast?_eq_getLast l1 hne] at hseam
    exact Option.noConfusion hseam
  | cons a t =>
    rw [List.getLast?_eq_getLast l1 hne] at hseam
    have ha : l1.getLast hne = a := Option.some.inj hseam
    have : l1.dropLast ++ [a] = l1 := by
      rw [← ha]
      exact List.dropLast_append_getLast hne
    calc l1.dropLast ++ (a :: t) = (l1.dropLast ++ [a]) ++ t := by simp
    _ = l1 ++ t := by rw [this]
    _ = l1 ++ (a :: t).tail := rfl

theorem chain'_dropLast_append {α : Type} (Rel : α → α → Prop)
    {l1 l2 : List α} (hne : l1 ≠ []) (hseam : l1.getLast? = l2.head?)
    (h1 : List.Chain' Rel l1) (h2 : List.Chain' Rel l2) :
    List.Chain' Rel (l1.dropLast ++ l2) := by
  rw [dropLast_append_of_seam hne hseam]
  rw [List.chain'_append]
  refine ⟨h1, h2.tail, ?_⟩
  intro x hx y hy
  cases l2 with
  | nil => simp at hy
  | cons a t =>
    have hax : x = a := by
      rw [hx] at hseam
      exact Option.some.inj hseam
    subst hax
    exact (List.chain'_cons'.1 h2).1 y hy

theorem spd_strong {R : Type} (next : R → ℝ × R) {d : ℕ} (curve : PCurve d)
    (tol : ℝ) :
    ∀ (fuel : ℕ) (rng : R) (a b : ℝ) (rng' : R) (P : List ℝ)
      (Q : List (Fin d → ℝ)),
    a < b →
    sub_parameter_division next curve tol fuel rng (a, b)
      (curve.subs a, curve.subs b) = some (rng', P, Q) →
    Q = P.map curve.subs ∧ P.head? = some a ∧ P.getLast? = some b ∧
    List.Chain' (· < ·) P ∧
    ((∀ r, 0 ≤ (next r).1 ∧ (next r).1 < 1) →
      List.Chain' (fun s u => ∃ p : ℝ, 2 / 5 ≤ p ∧ p < 3 / 5 ∧
        distR (curve.subs (s * (1 - p) + u * p))
          (fun i => curve.subs s i + (curve.subs u i - curve.subs s i) * p) <
          tol) P) := by
  intro fuel
  induction fuel with
  | zero =>
    intro rng a b rng' P Q _ h
    rw [sub_parameter_division] at h
    exact Option.noConfusion h
  | succ n ih =>
    intro rng a b rng' P Q hab h
    rw [sub_parameter_division] at h
    by_cases hflat : distR
        (curve.subs ((a, b).1 * (1 - (0.5 + (0.2 * (next rng).1 - 0.1))) +
          (a, b).2 * (0.5 + (0.2 * (next rng).1 - 0.1))))
        (fun i => (curve.subs a, curve.subs b).1 i +
          ((curve.subs a, curve.subs b).2 i -
            (curve.subs a, curve.subs b).1 i) *
            (0.5 + (0.2 * (next rng).1 - 0.1))) < tol
    · rw [if_pos hflat] at h
      simp only [Option.some.injEq, Prod.mk.injEq] at h
      obtain ⟨-, hP, hQ⟩ := h
      subst hP
      subst hQ
      refine ⟨by simp, rfl, by simp, ?_, ?_⟩
      · exact List.chain'_cons.2 ⟨hab, List.chain'_singleton b⟩
      · intro hnext
        obtain ⟨h0, h1⟩ := hnext rng
        refine List.chain'_cons.2 ⟨⟨0.5 + (0.2 * (next rng).1 - 0.1), ?_, ?_, hflat⟩,
          List.chain'_singleton b⟩
        · rw [show (2 : ℝ) / 5 = 0.4 by norm_num]
          linarith
        · rw [show (3 : ℝ) / 5 = 0.6 by norm_num]
          linarith
    · rw [if_neg hflat] at h
      dsimp only at h
      have ham : a < (a + b) / 2 := by linarith
      have hmb : (a + b) / 2 < b := by linarith
      rcases hL : sub_parameter_division next curve tol n (next rng).2
          (a, (a + b) / 2) (curve.subs a, curve.subs ((a + b) / 2)) with _ | ⟨rng2, P1, Q1⟩
      · rw [hL] at h
        exact Option.noConfusion h
      · rw [hL] at h
        dsimp only at h
        rcases hR : sub_parameter_division next curve tol n rng2
            ((a + b) / 2, b) (curve.subs ((a + b) / 2), curve.subs b) with _ | ⟨rng3, P2, Q2⟩
        · rw [hR] at h
          exact Option.noConfusion h
        · rw [hR] at h
          dsimp only at h
          simp only [Option.some.injEq, Prod.mk.injEq] at h
          obtain ⟨-, hP, hQ⟩ := h
          subst hP
          subst hQ
          obtain ⟨hQ1, hh1, hl1, hc1, hlf1⟩ := ih (next rng).2 a ((a + b) / 2)
            rng2 P1 Q1 ham hL
          obtain ⟨hQ2, hh2, hl2, hc2, hlf2⟩ := ih rng2 ((a + b) / 2) b
            rng3 P2 Q2 hmb hR
          have hne1 : P1 ≠ [] := by
            intro e
            rw [e] at hh1
            exact Option.noConfusion hh1
          have hne2 : P2 ≠ [] := by
            intro e
            rw [e] at hh2
            exact Option.noConfusion hh2
          have hseam : P1.getLast? = P2.head? := by rw [hl1, hh2]
          refine ⟨?_, ?_, ?_, ?_, ?_⟩
          · rw [hQ1, hQ2, List.map_append, List.map_dropLast]
          · rw [dropLast_append_of_seam hne1 hseam, List.head?_append_of_ne_nil _ hne1]
            exact hh1
          · rw [List.getLast?_append_of_ne_nil _ hne2]
            exact hl2
          · exact chain'_dropLast_append _ hne1 hseam hc1 hc2
          · intro hnext
            exact chain'_dropLast_append _ hne1 hseam (hlf1 hnext) (hlf2 hnext)

/-- Claim C4: whenever `parameter_division` terminates it returns equal-length
parameter and point sequences; the parameters are strictly ascending (hence no
duplicates after the split-seam drop), start exactly at `t0`, end exactly at
`t1`, and each point is `curve.subs` of its parameter. -/
theorem claim_C4 {R : Type} (next : R → ℝ × R) {d : ℕ} (curve : PCurve d)
    (tol : ℝ) (fuel : ℕ) (rng rng' : R) (t0 t1 : ℝ) (params : List ℝ)
    (pts : List (Fin d → ℝ)) (hlt : t0 < t1)
    (h : parameter_division next curve tol fuel rng (t0, t1) =
      some (rng', params, pts)) :
    params.length = pts.length ∧ List.Chain' (· < ·) params ∧ params.Nodup ∧
    params.head? = some t0 ∧ params.getLast? = some t1 ∧
    pts = params.map curve.subs := by
  rw [parameter_division] at h
  obtain ⟨hmap, hhead, hlast, hchain, -⟩ :=
    spd_strong next curve tol fuel rng t0 t1 rng' params pts hlt h
  refine ⟨by rw [hmap, List.length_map], hchain, ?_, hhead, hlast, hmap⟩
  exact List.Pairwise.imp ne_of_lt (List.chain'_iff_pairwise.1 hchain)

/-- Claim C4 witness: a constant curve tessellated over `(0, 1)` with fuel 1
and the degenerate half-draw generator. -/
theorem claim_C4_witness :
    (((0 : ℝ) < 1) ∧ parameter_division halfStep constC 1 1 () (0, 1) =
      some ((), [0, 1], [fun _ => 0, fun _ => 0])) ∧
    List.Chain' (· < ·) [(0 : ℝ), 1] := by
  have hpd : parameter_division halfStep constC 1 1 () (0, 1) =
      some ((), [0, 1], [fun _ => 0, fun _ => 0]) := by
    rw [parameter_division, sub_parameter_division]
    dsimp only [halfStep, constC]
    split
    · rfl
    · rename_i hcond
      exfalso
      apply hcond
      simp [distR, magnitude, magnitude2, dotR]
  exact ⟨⟨by norm_num, hpd⟩,
    (claim_C4 halfStep constC 1 1 () () 0 1 [0, 1] [fun _ => 0, fun _ => 0]
      (by norm_num) hpd).2.1⟩

/-- Claim C2 (amended): between every pair of consecutive returned entries
there is a jittered sample fraction `p ∈ [2/5, 3/5)` at which the true curve
point is within `tol` of the corresponding point of the returned chord (the
code checks flatness only at that single jittered sample). -/
theorem claim_C2 {R : Type} (next : R → ℝ × R) {d : ℕ} (curve : PCurve d)
    (tol : ℝ) (fuel : ℕ) (rng rng' : R) (t0 t1 : ℝ) (params : List ℝ)
    (pts : List (Fin d → ℝ))
    (hnext : ∀ r, 0 ≤ (next r).1 ∧ (next r).1 < 1) (hlt : t0 < t1)
    (h : parameter_division next curve tol fuel rng (t0, t1) =
      some (rng', params, pts)) :
    List.Chain' (fun s u => ∃ p : ℝ, 2 / 5 ≤ p ∧ p < 3 / 5 ∧
      distR (curve.subs (s.1 * (1 - p) + u.1 * p))
        (fun i => s.2 i + (u.2 i - s.2 i) * p) < tol) (params.zip pts) := by
  rw [parameter_division] at h
  obtain ⟨hmap, -, -, -, hleaf⟩ :=
    spd_strong next curve tol fuel rng t0 t1 rng' params pts hlt h
  have hz : params.zip pts = params.map fun a => (a, curve.subs a) := by
    rw [hmap]
    calc params.zip (params.map curve.subs)
        = (params.map id).zip (params.map curve.subs) := by rw [List.map_id]
    _ = params.map fun a => (id a, curve.subs a) := List.zip_map' id curve.subs params
  rw [hz, List.chain'_map]
  exact hleaf hnext

/-- Claim C2 witness: the amended guarantee on the constant-curve
tessellation. -/
theorem claim_C2_witness :
    ((∀ r : Unit, 0 ≤ (halfStep r).1 ∧ (halfStep r).1 < 1) ∧ ((0 : ℝ) < 1) ∧
      parameter_division halfStep constC 1 1 () (0, 1) =
        some ((), [0, 1], [fun _ => 0, fun _ => 0])) ∧
    List.Chain' (fun s u => ∃ p : ℝ, 2 / 5 ≤ p ∧ p < 3 / 5 ∧
      distR (constC.subs (s.1 * (1 - p) + u.1 * p))
        (fun i => s.2 i + (u.2 i - s.2 i) * p) < 1)
      (([0, 1] : List ℝ).zip [fun _ => 0, fun _ => 0]) := by
  have hnext : ∀ r : Unit, 0 ≤ (halfStep r).1 ∧ (halfStep r).1 < 1 := by
    intro r
    constructor <;> norm_num [halfStep]
  have hpd : parameter_division halfStep constC 1 1 () (0, 1) =
      some ((), [0, 1], [fun _ => 0, fun _ => 0]) := by
    rw [parameter_division, sub_parameter_division]
    dsimp only [halfStep, constC]
    split
    · rfl
    · rename_i hcond
      exfalso
      apply hcond
      simp [distR, magnitude, magnitude2, dotR]
  exact ⟨⟨hnext, by norm_num, hpd⟩,
    claim_C2 halfStep constC 1 1 () () 0 1 [0, 1] [fun _ => 0, fun _ => 0]
      hnext (by norm_num) hpd⟩

/-- Claim C2 counterexample: on the spike curve the tessellation terminates
with the single chord `[(0,origin), (1,origin)]` — the jittered sample at
`t = 1/2` sees a flat chord — yet the true curve point at `t = 9/10` is at
distance 1000 from the chord, violating the claimed bound `tol = 1` for
curve points sampled between consecutive parameters. -/
theorem claim_C2_counterexample :
    parameter_division halfStep spikeCurve 1 1 () (0, 1) =
      some ((), [0, 1], [fun _ => 0, fun _ => 0]) ∧
    ¬ chordApproxClaim spikeCurve 1 [0, 1] [fun _ => 0, fun _ => 0] := by
  constructor
  · rw [parameter_division, sub_parameter_division]
    dsimp only [halfStep, spikeCurve]
    rw [if_neg (show ¬((0:ℝ) * (1 - (0.5 + (0.2 * (1 / 2) - 0.1))) +
        1 * (0.5 + (0.2 * (1 / 2) - 0.1))) = 9 / 10 from by norm_num),
      if_neg (show ¬(0:ℝ) = 9 / 10 from by norm_num),
      if_neg (show ¬(1:ℝ) = 9 / 10 from by norm_num)]
    split
    · rfl
    · rename_i hcond
      exfalso
      apply hcond
      simp [distR, magnitude, magnitude2, dotR]
  · intro hcl
    have hinst := hcl 0 0 1 (fun _ => 0) (fun _ => 0) rfl rfl rfl rfl
      (9 / 10) (by norm_num) (by norm_num)
    have hsubs : spikeCurve.subs (9 / 10) = fun _ => 1000 := by
      rw [spikeCurve]
      simp
    rw [hsubs] at hinst
    have h1000 : distR (d := 1) (fun _ => 1000)
        (fun k => (0:ℝ) + (0 - 0) * ((9 / 10 - 0) / (1 - 0))) = 1000 := by
      unfold distR magnitude magnitude2 dotR
      rw [show ∑ i : Fin 1, (((fun _ => (1000:ℝ)) i -
          (0 + (0 - 0) * ((9 / 10 - 0) / (1 - 0)))) *
          ((fun _ => (1000:ℝ)) i - (0 + (0 - 0) * ((9 / 10 - 0) / (1 - 0)))))
          = 1000 ^ 2 from by simp; norm_num]
      exact Real.sqrt_sq (by norm_num)
    rw [h1000] at hinst
    norm_num at hinst

/-! ## First-appearance and index lemmas for the compaction claims -/

theorem faGo_append (acc l1 l2 : List ℕ) :
    faGo acc (l1 ++ l2) = faGo (faGo acc l1) l2 := by
  induction l1 generalizing acc with
  | nil => rfl
  | cons x xs ih =>
    rw [List.cons_append, faGo, faGo]
    exact ih _

theorem faGo_suffix (l : List ℕ) : ∀ acc, ∃ ex, faGo acc l = acc ++ ex := by
  induction l with
  | nil => exact fun acc => ⟨[], by simp [faGo]⟩
  | cons x xs ih =>
    intro acc
    rw [faGo]
    by_cases hx : x ∈ acc
    · rw [if_pos hx]
      exact ih acc
    · rw [if_neg hx]
      obtain ⟨ex, he⟩ := ih (acc ++ [x])
      exact ⟨[x] ++ ex, by rw [he, List.append_assoc]⟩

theorem mem_faGo_iff (l : List ℕ) : ∀ acc x, x ∈ faGo acc l ↔ x ∈ acc ∨ x ∈ l := by
  induction l with
  | nil => simp [faGo]
  | cons y ys ih =>
    intro acc x
    rw [faGo]
    by_cases hy : y ∈ acc
    · rw [if_pos hy, ih]
      constructor
      · rintro (h | h)
        · exact Or.inl h
        · exact Or.inr (List.mem_cons_of_mem y h)
      · rintro (h | h)
        · exact Or.inl h
        · rcases List.mem_cons.1 h with h | h
          · exact Or.inl (h ▸ hy)
          · exact Or.inr h
    · rw [if_neg hy, ih]
      simp only [List.mem_append, List.mem_singleton, List.mem_cons]
      tauto

theorem faGo_nodup (l : List ℕ) : ∀ acc, acc.Nodup → (faGo acc l).Nodup := by
  induction l with
  | nil => exact fun acc h => h
  | cons x xs ih =>
    intro acc hacc
    rw [faGo]
    by_cases hx : x ∈ acc
    · rw [if_pos hx]
      exact ih acc hacc
    · rw [if_neg hx]
      refine ih (acc ++ [x]) ?_
      simp [List.nodup_append, hacc, hx]

theorem faGo_toFinset (l : List ℕ) (acc : List ℕ) :
    (faGo acc l).toFinset = acc.toFinset ∪ l.toFinset := by
  apply Finset.ext
  intro a
  simp [List.mem_toFinset, mem_faGo_iff]

theorem idxOf_append_left {x : ℕ} {l : List ℕ} (l' : List ℕ) (h : x ∈ l) :
    idxOf (l ++ l') x = idxOf l x := by
  induction l with
  | nil => exact absurd h (List.not_mem_nil x)
  | cons y ys ih =>
    rw [List.cons_append, idxOf, idxOf]
    by_cases hy : y = x
    · rw [if_pos hy, if_pos hy]
    · rw [if_neg hy, if_neg hy, ih (List.mem_of_ne_of_mem (fun e => hy e.symm) h)]

theorem idxOf_lt_length {x : ℕ} {l : List ℕ} (h : x ∈ l) :
    idxOf l x < l.length := by
  induction l with
  | nil => exact absurd h (List.not_mem_nil x)
  | cons y ys ih =>
    rw [idxOf]
    by_cases hy : y = x
    · rw [if_pos hy]
      simp
    · rw [if_neg hy, List.length_cons]
      exact Nat.succ_lt_succ (ih (List.mem_of_ne_of_mem (fun e => hy e.symm) h))

theorem getD_idxOf {x : ℕ} {l : List ℕ} (h : x ∈ l) :
    l.getD (idxOf l x) 0 = x := by
  induction l with
  | nil => exact absurd h (List.not_mem_nil x)
  | cons y ys ih =>
    rw [idxOf]
    by_cases hy : y = x
    · rw [if_pos hy]
      exact hy
    · rw [if_neg hy, List.getD_cons_succ]
      exact ih (List.mem_of_ne_of_mem (fun e => hy e.symm) h)

theorem idxOf_append_self {x : ℕ} {l : List ℕ} (h : x ∉ l) :
    idxOf (l ++ [x]) x = l.length := by
  induction l with
  | nil => simp [idxOf]
  | cons y ys ih =>
    rw [List.cons_append, idxOf]
    have hy : y ≠ x := fun e => h (e ▸ List.mem_cons_self y ys)
    rw [if_neg hy, ih (fun hm => h (List.mem_cons_of_mem y hm))]
    rfl

theorem idxOf_faGo_of_mem {x : ℕ} {acc : List ℕ} (l : List ℕ) (h : x ∈ acc) :
    idxOf (faGo acc l) x = idxOf acc x := by
  obtain ⟨ex, he⟩ := faGo_suffix l acc
  rw [he, idxOf_append_left ex h]

theorem nodup_getD_idxOf : ∀ (l : List ℕ), l.Nodup → ∀ k < l.length,
    idxOf l (l.getD k 0) = k := by
  intro l
  induction l with
  | nil =>
    intro _ k hk
    exact absurd hk (by simp)
  | cons y ys ih =>
    intro hn k hk
    cases k with
    | zero =>
      rw [List.getD_cons_zero, idxOf, if_pos rfl]
    | succ k' =>
      rw [List.getD_cons_succ, idxOf]
      have hk' : k' < ys.length := by simpa using hk
      have hmem : ys.getD k' 0 ∈ ys := by
        rw [List.getD_eq_getElem ys 0 hk']
        exact List.getElem_mem hk'
      have hy : y ≠ ys.getD k' 0 := by
        intro e
        exact (List.nodup_cons.1 hn).1 (e ▸ hmem)
      rw [if_neg hy, ih (List.nodup_cons.1 hn).2 k' hk']

theorem idxOf_inj {x y : ℕ} {l : List ℕ} (hx : x ∈ l) (hy : y ∈ l)
    (h : idxOf l x = idxOf l y) : x = y := by
  rw [← getD_idxOf hx, ← getD_idxOf hy, h]

theorem faGo_map_inj (F : List ℕ) (f : ℕ → ℕ)
    (hinj : ∀ u ∈ F, ∀ v ∈ F, f u = f v → u = v) :
    ∀ (l acc : List ℕ), (∀ u ∈ acc, u ∈ F) → (∀ u ∈ l, u ∈ F) →
    faGo (acc.map f) (l.map f) = (faGo acc l).map f := by
  intro l
  induction l with
  | nil => intro acc _ _; rfl
  | cons x xs ih =>
    intro acc hacc hl
    have hxF : x ∈ F := hl x (List.mem_cons_self x xs)
    have hmem : f x ∈ acc.map f ↔ x ∈ acc := by
      constructor
      · intro h
        obtain ⟨u, hu, hfu⟩ := List.mem_map.1 h
        exact hinj u (hacc u hu) x hxF hfu ▸ hu
      · exact List.mem_map_of_mem f
    rw [List.map_cons, faGo, faGo]
    by_cases hx : x ∈ acc
    · rw [if_pos hx, if_pos (hmem.2 hx)]
      exact ih acc hacc (fun u hu => hl u (List.mem_cons_of_mem x hu))
    · rw [if_neg hx, if_neg (fun h => hx (hmem.1 h)),
        show acc.map f ++ [f x] = (acc ++ [x]).map f from by simp]
      refine ih (acc ++ [x]) ?_ (fun u hu => hl u (List.mem_cons_of_mem x hu))
      intro u hu
      rcases List.mem_append.1 hu with h | h
      · exact hacc u h
      · rw [List.mem_singleton.1 h]
        exact hxF

theorem map_idxOf_self {F : List ℕ} (hn : F.Nodup) :
    F.map (idxOf F) = List.range F.length := by
  apply List.ext_getElem
  · simp
  · intro k h1 h2
    rw [List.getElem_map, List.getElem_range]
    have hk : k < F.length := by simpa using h1
    have := nodup_getD_idxOf F hn k hk
    rwa [List.getD_eq_getElem F 0 hk] at this

theorem idxOf_range {k n : ℕ} (h : k < n) : idxOf (List.range n) k = k := by
  have := nodup_getD_idxOf (List.range n) (List.nodup_range n) k (by simpa using h)
  rwa [List.getD_eq_getElem _ 0 (by simpa using h), List.getElem_range] at this

theorem map_getD_range {α : Type} (l : List α) (dflt : α) :
    (List.range l.length).map (fun i => l.getD i dflt) = l := by
  apply List.ext_getElem
  · simp
  · intro k h1 h2
    rw [List.getElem_map, List.getElem_range, List.getD_eq_getElem l dflt h2]

/-! ## The compaction loop: state invariants -/

theorem getD_replicate_none (L v : ℕ) :
    (List.replicate L (none : Option ℕ)).getD v none = none := by
  rw [List.getD_eq_getElem?_getD]
  by_cases hv : v < L
  · rw [List.getElem?_replicate, if_pos hv]
    rfl
  · rw [List.getElem?_eq_none (by simpa using Nat.le_of_not_lt hv)]
    rfl

theorem SInv_init (L : ℕ) : SInv L [] ⟨[], List.replicate L none⟩ :=
  ⟨rfl, List.length_replicate L none,
    fun v => by rw [getD_replicate_none, if_neg (List.not_mem_nil v)],
    fun v hv => absurd hv (List.not_mem_nil v)⟩

theorem sub_step_spec {L : ℕ} {acc : List ℕ} {st : SState}
    (hinv : SInv L acc st) {i : ℕ} (hi : i < L) :
    SInv L (faGo acc [i]) (sub_step st i).1 ∧
    (sub_step st i).2 = idxOf (faGo acc [i]) i := by
  obtain ⟨hnew, hlen, hlook, hbnd⟩ := hinv
  rw [sub_step, hlook i]
  by_cases hmem : i ∈ acc
  · rw [if_pos hmem]
    have hfa : faGo acc [i] = acc := by rw [faGo, if_pos hmem, faGo]
    rw [hfa]
    exact ⟨⟨hnew, hlen, hlook, hbnd⟩, rfl⟩
  · rw [if_neg hmem]
    have hfa : faGo acc [i] = acc ++ [i] := by rw [faGo, if_neg hmem, faGo]
    rw [hfa]
    have hilt : i < st.old2new.length := by rw [hlen]; exact hi
    constructor
    · refine ⟨by rw [hnew], by rw [List.length_set, hlen], ?_, ?_⟩
      · intro v
        rw [List.getD_eq_getElem?_getD]
        by_cases hv : v = i
        · subst hv
          rw [List.getElem?_set_eq_of_lt _ hilt, if_pos (by simp)]
          rw [idxOf_append_self hmem, hnew]
          rfl
        · rw [List.getElem?_set_ne (fun e => hv e.symm), ← List.getD_eq_getElem?_getD,
            hlook v]
          by_cases hva : v ∈ acc
          · rw [if_pos hva, if_pos (List.mem_append_left _ hva),
              idxOf_append_left _ hva]
          · rw [if_neg hva, if_neg (by
              intro hm
              rcases List.mem_append.1 hm with h | h
              · exact hva h
              · exact hv (List.mem_singleton.1 h))]
      · intro v hv
        rcases List.mem_append.1 hv with h | h
        · exact hbnd v h
        · rw [List.mem_singleton.1 h]
          exact hi
    · rw [idxOf_append_self hmem, hnew]

theorem runVerts_spec (get : Vertex → Option ℕ) (put : Vertex → ℕ → Vertex)
    {L : ℕ} : ∀ (vs : List Vertex) (acc : List ℕ) (st : SState),
    SInv L acc st → (∀ i ∈ flatVerts get vs, i < L) →
    (runVerts get put st vs).1.new2old = faGo acc (flatVerts get vs) ∧
    SInv L (faGo acc (flatVerts get vs)) (runVerts get put st vs).1 ∧
    (runVerts get put st vs).2 = vs.map fun v =>
      match get v with
      | none => v
      | some i => put v (idxOf (faGo acc (flatVerts get vs)) i) := by
  intro vs
  induction vs with
  | nil =>
    intro acc st hinv _
    exact ⟨hinv.1, hinv, rfl⟩
  | cons v vs' ih =>
    intro acc st hinv hrange
    cases hget : get v with
    | none =>
      have hflat : flatVerts get (v :: vs') = flatVerts get vs' := by
        simp [flatVerts, List.filterMap_cons, hget]
      rw [runVerts, hget, hflat]
      dsimp only
      obtain ⟨h1, h2, h3⟩ := ih acc st hinv (by rw [← hflat]; exact hrange)
      refine ⟨h1, h2, ?_⟩
      rw [List.map_cons, hget, h3]
    | some i =>
      have hflat : flatVerts get (v :: vs') = i :: flatVerts get vs' := by
        simp [flatVerts, List.filterMap_cons, hget]
      have hi : i < L := by
        apply hrange
        rw [hflat]
        exact List.mem_cons_self i _
      have hrange' : ∀ j ∈ flatVerts get vs', j < L := by
        intro j hj
        apply hrange
        rw [hflat]
        exact List.mem_cons_of_mem i hj
      obtain ⟨hstep, hval⟩ := sub_step_spec hinv hi
      obtain ⟨h1, h2, h3⟩ := ih (faGo acc [i]) (sub_step st i).1 hstep hrange'
      have hfa : faGo acc (flatVerts get (v :: vs')) =
          faGo (faGo acc [i]) (flatVerts get vs') := by
        rw [hflat]
        rfl
      rw [runVerts, hget]
      dsimp only
      refine ⟨by rw [hfa]; exact h1, by rw [hfa]; exact h2, ?_⟩
      have hmem : i ∈ faGo acc [i] := by
        rw [mem_faGo_iff]
        exact Or.inr (List.mem_singleton.2 rfl)
      rw [h3, hfa, List.map_cons]
      congr 1
      dsimp only
      rw [hget]
      dsimp only
      rw [hval, idxOf_faGo_of_mem (flatVerts get vs') hmem]

theorem face_map_congr (get : Vertex → Option ℕ) (put : Vertex → ℕ → Vertex)
    (f : List Vertex) (F1 F2 : List ℕ)
    (h : ∀ i ∈ flatVerts get f, idxOf F2 i = idxOf F1 i) :
    (f.map fun v => match get v with
      | none => v
      | some i => put v (idxOf F1 i)) =
      f.map fun v => match get v with
      | none => v
      | some i => put v (idxOf F2 i) := by
  apply List.map_congr_left
  intro v hv
  cases hget : get v with
  | none => rfl
  | some i =>
    dsimp only
    rw [h i (List.mem_filterMap.2 ⟨v, hv, hget⟩)]

theorem flatFacesList_cons (get : Vertex → Option ℕ) (f : List Vertex)
    (fs : List (List Vertex)) :
    flatFacesList get (f :: fs) = flatVerts get f ++ flatFacesList get fs := by
  simp [flatFacesList]

theorem runFacesList_spec (get : Vertex → Option ℕ) (put : Vertex → ℕ → Vertex)
    {L : ℕ} : ∀ (fs : List (List Vertex)) (acc : List ℕ) (st : SState),
    SInv L acc st → (∀ i ∈ flatFacesList get fs, i < L) →
    (runFacesList get put st fs).1.new2old = faGo acc (flatFacesList get fs) ∧
    SInv L (faGo acc (flatFacesList get fs)) (runFacesList get put st fs).1 ∧
    (runFacesList get put st fs).2 = fs.map fun f => f.map fun v =>
      match get v with
      | none => v
      | some i => put v (idxOf (faGo acc (flatFacesList get fs)) i) := by
  intro fs
  induction fs with
  | nil =>
    intro acc st hinv _
    exact ⟨hinv.1, hinv, rfl⟩
  | cons f fs' ih =>
    intro acc st hinv hrange
    rw [flatFacesList_cons, faGo_append]
    have hrangeF : ∀ i ∈ flatVerts get f, i < L := by
      intro i hi
      exact hrange i (by rw [flatFacesList_cons]; exact List.mem_append_left _ hi)
    have hrangeR : ∀ i ∈ flatFacesList get fs', i < L := by
      intro i hi
      exact hrange i (by rw [flatFacesList_cons]; exact List.mem_append_right _ hi)
    obtain ⟨hv1, hv2, hv3⟩ := runVerts_spec get put f acc st hinv hrangeF
    obtain ⟨hl1, hl2, hl3⟩ := ih (faGo acc (flatVerts get f))
      (runVerts get put st f).1 hv2 hrangeR
    rw [runFacesList]
    dsimp only
    refine ⟨hl1, hl2, ?_⟩
    rw [List.map_cons, hl3, hv3]
    congr 1
    apply face_map_congr
    intro i hi
    apply idxOf_faGo_of_mem
    rw [mem_faGo_iff]
    exact Or.inr hi

theorem runFaces_spec (get : Vertex → Option ℕ) (put : Vertex → ℕ → Vertex)
    {L : ℕ} (fs : Faces) (acc : List ℕ) (st : SState) (hinv : SInv L acc st)
    (hrange : ∀ i ∈ flatFaces get fs, i < L) :
    (runFaces get put st fs).1.new2old = faGo acc (flatFaces get fs) ∧
    SInv L (faGo acc (flatFaces get fs)) (runFaces get put st fs).1 ∧
    (runFaces get put st fs).2 = mapVerts (fun v =>
      match get v with
      | none => v
      | some i => put v (idxOf (faGo acc (flatFaces get fs)) i)) fs := by
  have hrT : ∀ i ∈ flatFacesList get fs.tri_faces, i < L := by
    intro i hi
    exact hrange i (List.mem_append_left _ (List.mem_append_left _ hi))
  have hrQ : ∀ i ∈ flatFacesList get fs.quad_faces, i < L := by
    intro i hi
    exact hrange i (List.mem_append_left _ (List.mem_append_right _ hi))
  have hrO : ∀ i ∈ flatFacesList get fs.other_faces, i < L := by
    intro i hi
    exact hrange i (List.mem_append_right _ hi)
  obtain ⟨hT1, hT2, hT3⟩ := runFacesList_spec get put fs.tri_faces acc st hinv hrT
  obtain ⟨hQ1, hQ2, hQ3⟩ := runFacesList_spec get put fs.quad_faces _ _ hT2 hrQ
  obtain ⟨hO1, hO2, hO3⟩ := runFacesList_spec get put fs.other_faces _ _ hQ2 hrO
  have hfa : faGo acc (flatFaces get fs) =
      faGo (faGo (faGo acc (flatFacesList get fs.tri_faces))
        (flatFacesList get fs.quad_faces)) (flatFacesList get fs.other_faces) := by
    rw [flatFaces, List.append_assoc, faGo_append, faGo_append]
  rw [runFaces]
  dsimp only
  refine ⟨by rw [hfa]; exact hO1, by rw [hfa]; exact hO2, ?_⟩
  rw [mapVerts]
  have hmemT : ∀ i ∈ flatFacesList get fs.tri_faces,
      i ∈ faGo acc (flatFacesList get fs.tri_faces) := by
    intro i hi
    rw [mem_faGo_iff]
    exact Or.inr hi
  have hmemQ : ∀ i ∈ flatFacesList get fs.quad_faces,
      i ∈ faGo (faGo acc (flatFacesList get fs.tri_faces))
        (flatFacesList get fs.quad_faces) := by
    intro i hi
    rw [mem_faGo_iff]
    exact Or.inr hi
  have heq : Faces.mk
      ((runFacesList get put st fs.tri_faces).2)
      ((runFacesList get put (runFacesList get put st fs.tri_faces).1
        fs.quad_faces).2)
      ((runFacesList get put (runFacesList get put
        (runFacesList get put st fs.tri_faces).1 fs.quad_faces).1
        fs.other_faces).2) = _ := rfl
  rw [hT3, hQ3, hO3]
  congr 1
  · apply List.map_congr_left
    intro f hf
    apply face_map_congr
    intro i hi
    have hiT : i ∈ faGo acc (flatFacesList get fs.tri_faces) :=
      hmemT i (List.mem_flatten.2
        ⟨flatVerts get f, List.mem_map_of_mem _ hf, hi⟩)
    have hiQ : i ∈ faGo (faGo acc (flatFacesList get fs.tri_faces))
        (flatFacesList get fs.quad_faces) := by
      rw [mem_faGo_iff]
      exact Or.inl hiT
    rw [hfa, idxOf_faGo_of_mem _ hiQ, idxOf_faGo_of_mem _ hiT]
  · apply List.map_congr_left
    intro f hf
    apply face_map_congr
    intro i hi
    have hiQ : i ∈ faGo (faGo acc (flatFacesList get fs.tri_faces))
        (flatFacesList get fs.quad_faces) :=
      hmemQ i (List.mem_flatten.2
        ⟨flatVerts get f, List.mem_map_of_mem _ hf, hi⟩)
    rw [hfa, idxOf_faGo_of_mem _ hiQ]
  · rw [hfa]

theorem posFn_eq (F : List ℕ) :
    (fun v => match getPos v with
      | none => v
      | some i => putPos v (idxOf F i)) = rwPos F := by
  funext v
  rfl

theorem uvFn_eq (F : List ℕ) :
    (fun v => match getUv v with
      | none => v
      | some i => putUv v (idxOf F i)) = rwUv F := by
  funext v
  cases h : v.uv with
  | none =>
    simp only [getUv, putUv, rwUv, h, Option.map_none']
    rw [← h]
  | some i => simp [getUv, putUv, rwUv, h]

theorem norFn_eq (F : List ℕ) :
    (fun v => match getNor v with
      | none => v
      | some i => putNor v (idxOf F i)) = rwNor F := by
  funext v
  cases h : v.nor with
  | none =>
    simp only [getNor, putNor, rwNor, h, Option.map_none']
    rw [← h]
  | some i => simp [getNor, putNor, rwNor, h]

theorem flatVerts_map_invariant (get2 : Vertex → Option ℕ) (g : Vertex → Vertex)
    (hg : ∀ v, get2 (g v) = get2 v) (vs : List Vertex) :
    flatVerts get2 (vs.map g) = flatVerts get2 vs := by
  unfold flatVerts
  rw [List.filterMap_map, show get2 ∘ g = get2 from funext hg]

theorem flatFaces_mapVerts_invariant (get2 : Vertex → Option ℕ)
    (g : Vertex → Vertex) (hg : ∀ v, get2 (g v) = get2 v) (fs : Faces) :
    flatFaces get2 (mapVerts g fs) = flatFaces get2 fs := by
  have hlist : ∀ l : List (List Vertex),
      flatFacesList get2 (l.map (List.map g)) = flatFacesList get2 l := by
    intro l
    unfold flatFacesList
    rw [List.map_map]
    congr 1
    apply List.map_congr_left
    intro f _
    exact flatVerts_map_invariant get2 g hg f
  unfold flatFaces mapVerts
  dsimp only
  rw [hlist, hlist, hlist]

theorem rua_spec (mesh : PolygonMesh) (hr : inRange mesh) :
    remove_unused_attrs mesh =
      ⟨(firstAppear (flatFaces getPos mesh.faces)).map
          (fun i => mesh.positions.getD i default),
        (firstAppear (flatFaces getUv mesh.faces)).map
          (fun i => mesh.uv_coords.getD i default),
        (firstAppear (flatFaces getNor mesh.faces)).map
          (fun i => mesh.normals.getD i default),
        mapVerts (combRw (firstAppear (flatFaces getPos mesh.faces))
          (firstAppear (flatFaces getUv mesh.faces))
          (firstAppear (flatFaces getNor mesh.faces))) mesh.faces⟩ := by
  obtain ⟨hrP, hrU, hrN⟩ := hr
  have hP := runFaces_spec getPos putPos mesh.faces []
    ⟨[], List.replicate mesh.positions.length none⟩
    (SInv_init mesh.positions.length) hrP
  have hfaces1 : (runFaces getPos putPos
      ⟨[], List.replicate mesh.positions.length none⟩ mesh.faces).2 =
      mapVerts (rwPos (firstAppear (flatFaces getPos mesh.faces))) mesh.faces := by
    rw [hP.2.2, posFn_eq]
    rfl
  have hgUP : ∀ v, getUv (rwPos (firstAppear (flatFaces getPos mesh.faces)) v) =
      getUv v := fun v => rfl
  have hflatU : flatFaces getUv (runFaces getPos putPos
      ⟨[], List.replicate mesh.positions.length none⟩ mesh.faces).2 =
      flatFaces getUv mesh.faces := by
    rw [hfaces1]
    exact flatFaces_mapVerts_invariant getUv _ hgUP mesh.faces
  have hrU' : ∀ i ∈ flatFaces getUv (runFaces getPos putPos
      ⟨[], List.replicate mesh.positions.length none⟩ mesh.faces).2,
      i < mesh.uv_coords.length := by
    rw [hflatU]
    exact hrU
  have hU := runFaces_spec getUv putUv ((runFaces getPos putPos
      ⟨[], List.replicate mesh.positions.length none⟩ mesh.faces).2) []
    ⟨[], List.replicate mesh.uv_coords.length none⟩
    (SInv_init mesh.uv_coords.length) hrU'
  have hfaces2 : (runFaces getUv putUv
      ⟨[], List.replicate mesh.uv_coords.length none⟩
      (runFaces getPos putPos
        ⟨[], List.replicate mesh.positions.length none⟩ mesh.faces).2).2 =
      mapVerts (rwUv (firstAppear (flatFaces getUv mesh.faces)))
        (mapVerts (rwPos (firstAppear (flatFaces getPos mesh.faces)))
          mesh.faces) := by
    rw [hU.2.2, uvFn_eq, hflatU, hfaces1]
    rfl
  have hgNPU : ∀ v, getNor ((rwUv (firstAppear (flatFaces getUv mesh.faces)))
      ((rwPos (firstAppear (flatFaces getPos mesh.faces))) v)) = getNor v :=
    fun v => rfl
  have hflatN : flatFaces getNor (runFaces getUv putUv
      ⟨[], List.replicate mesh.uv_coords.length none⟩
      (runFaces getPos putPos
        ⟨[], List.replicate mesh.positions.length none⟩ mesh.faces).2).2 =
      flatFaces getNor mesh.faces := by
    rw [hfaces2, mapVerts_mapVerts]
    exact flatFaces_mapVerts_invariant getNor _ hgNPU mesh.faces
  have hrN' : ∀ i ∈ flatFaces getNor (runFaces getUv putUv
      ⟨[], List.replicate mesh.uv_coords.length none⟩
      (runFaces getPos putPos
        ⟨[], List.replicate mesh.positions.length none⟩ mesh.faces).2).2,
      i < mesh.normals.length := by
    rw [hflatN]
    exact hrN
  have hN := runFaces_spec getNor putNor ((runFaces getUv putUv
      ⟨[], List.replicate mesh.uv_coords.length none⟩
      (runFaces getPos putPos
        ⟨[], List.replicate mesh.positions.length none⟩ mesh.faces).2).2) []
    ⟨[], List.replicate mesh.normals.length none⟩
    (SInv_init mesh.normals.length) hrN'
  rw [remove_unused_attrs]
  congr 1
  · rw [hP.1]
    rfl
  · rw [hU.1, hflatU]
    rfl
  · rw [hN.1, hflatN]
    rfl
  · rw [hN.2.2, norFn_eq, hflatN, hfaces2, mapVerts_mapVerts, mapVerts_mapVerts]
    rfl

theorem compact_length (flat : List ℕ) :
    (firstAppear flat).length = flat.toFinset.card := by
  have hnd : (firstAppear flat).Nodup := faGo_nodup flat [] List.nodup_nil
  have hset : (firstAppear flat).toFinset = flat.toFinset := by
    rw [firstAppear, faGo_toFinset]
    simp
  rw [← hset, List.toFinset_card_of_nodup hnd]

theorem mem_firstAppear_of_mem {i : ℕ} {flat : List ℕ} (h : i ∈ flat) :
    i ∈ firstAppear flat := by
  rw [firstAppear, mem_faGo_iff]
  exact Or.inr h

theorem compact_value_preserved {α : Type} [Inhabited α] (flat : List ℕ)
    (arr : List α) {i : ℕ} (hi : i ∈ flat) :
    ((firstAppear flat).map (fun j => arr.getD j default)).getD
      (idxOf (firstAppear flat) i) default = arr.getD i default := by
  have himem : i ∈ firstAppear flat := mem_firstAppear_of_mem hi
  rw [getD_map_of_lt _ _ _ (idxOf_lt_length himem),
    show (default : ℕ) = 0 from rfl, getD_idxOf himem]

theorem flatVerts_comb (get2 : Vertex → Option ℕ) (f : ℕ → ℕ)
    (g : Vertex → Vertex) (hg : ∀ v, get2 (g v) = (get2 v).map f)
    (vs : List Vertex) :
    flatVerts get2 (vs.map g) = (flatVerts get2 vs).map f := by
  unfold flatVerts
  rw [List.filterMap_map, List.map_filterMap]
  congr 1
  funext v
  exact hg v

theorem flatFacesList_comb (get2 : Vertex → Option ℕ) (f : ℕ → ℕ)
    (g : Vertex → Vertex) (hg : ∀ v, get2 (g v) = (get2 v).map f)
    (l : List (List Vertex)) :
    flatFacesList get2 (l.map (List.map g)) = (flatFacesList get2 l).map f := by
  induction l with
  | nil => rfl
  | cons fc l' ih =>
    rw [List.map_cons, flatFacesList_cons, flatFacesList_cons, List.map_append,
      ih, flatVerts_comb get2 f g hg]

theorem flatFaces_comb (get2 : Vertex → Option ℕ) (f : ℕ → ℕ)
    (g : Vertex → Vertex) (hg : ∀ v, get2 (g v) = (get2 v).map f)
    (fs : Faces) :
    flatFaces get2 (mapVerts g fs) = (flatFaces get2 fs).map f := by
  unfold flatFaces mapVerts
  dsimp only
  rw [flatFacesList_comb get2 f g hg, flatFacesList_comb get2 f g hg,
    flatFacesList_comb get2 f g hg, List.map_append, List.map_append]

theorem mapVerts_congr {g1 g2 : Vertex → Vertex} (fs : Faces)
    (h : ∀ f ∈ fs.face_iter, ∀ v ∈ f, g1 v = g2 v) :
    mapVerts g1 fs = mapVerts g2 fs := by
  unfold mapVerts
  congr 1
  · apply List.map_congr_left
    intro f hf
    exact List.map_congr_left
      (h f (List.mem_append_left _ (List.mem_append_left _ hf)))
  · apply List.map_congr_left
    intro f hf
    exact List.map_congr_left
      (h f (List.mem_append_left _ (List.mem_append_right _ hf)))
  · apply List.map_congr_left
    intro f hf
    exact List.map_congr_left (h f (List.mem_append_right _ hf))

theorem mem_flatFaces_of_mem (get : Vertex → Option ℕ) {fs : Faces}
    {v : Vertex} {f : List Vertex} (hv : v ∈ f) (hf : f ∈ fs.face_iter)
    {i : ℕ} (hget : get v = some i) : i ∈ flatFaces get fs := by
  have hmemfl : ∀ l : List (List Vertex), f ∈ l → i ∈ flatFacesList get l := by
    intro l hl
    exact List.mem_flatten.2 ⟨flatVerts get f, List.mem_map_of_mem _ hl,
      List.mem_filterMap.2 ⟨v, hv, hget⟩⟩
  unfold Faces.face_iter at hf
  rcases List.mem_append.1 hf with hf' | hf'
  · rcases List.mem_append.1 hf' with hf'' | hf''
    · exact List.mem_append_left _ (List.mem_append_left _ (hmemfl _ hf''))
    · exact List.mem_append_left _ (List.mem_append_right _ (hmemfl _ hf''))
  · exact List.mem_append_right _ (hmemfl _ hf')

/-- Claim C6: after `remove_unused_attrs` each attribute array consists of
exactly the entries referenced by the faces, in order of first appearance in
the face traversal; every face index is rewritten to the new numbering so each
vertex refers to the same attribute value as before; and each array's length
is the number of distinct referenced indices of that kind. -/
theorem claim_C6 (mesh : PolygonMesh) (hr : inRange mesh) :
    ((remove_unused_attrs mesh).positions =
        (firstAppear (flatFaces getPos mesh.faces)).map
          (fun i => mesh.positions.getD i default) ∧
      (remove_unused_attrs mesh).uv_coords =
        (firstAppear (flatFaces getUv mesh.faces)).map
          (fun i => mesh.uv_coords.getD i default) ∧
      (remove_unused_attrs mesh).normals =
        (firstAppear (flatFaces getNor mesh.faces)).map
          (fun i => mesh.normals.getD i default)) ∧
    ((remove_unused_attrs mesh).faces =
      mapVerts (combRw (firstAppear (flatFaces getPos mesh.faces))
        (firstAppear (flatFaces getUv mesh.faces))
        (firstAppear (flatFaces getNor mesh.faces))) mesh.faces) ∧
    ((remove_unused_attrs mesh).positions.length =
        (flatFaces getPos mesh.faces).toFinset.card ∧
      (remove_unused_attrs mesh).uv_coords.length =
        (flatFaces getUv mesh.faces).toFinset.card ∧
      (remove_unused_attrs mesh).normals.length =
        (flatFaces getNor mesh.faces).toFinset.card) ∧
    ((∀ i ∈ flatFaces getPos mesh.faces,
        (remove_unused_attrs mesh).positions.getD
          (idxOf (firstAppear (flatFaces getPos mesh.faces)) i) default =
          mesh.positions.getD i default) ∧
      (∀ i ∈ flatFaces getUv mesh.faces,
        (remove_unused_attrs mesh).uv_coords.getD
          (idxOf (firstAppear (flatFaces getUv mesh.faces)) i) default =
          mesh.uv_coords.getD i default) ∧
      (∀ i ∈ flatFaces getNor mesh.faces,
        (remove_unused_attrs mesh).normals.getD
          (idxOf (firstAppear (flatFaces getNor mesh.faces)) i) default =
          mesh.normals.getD i default)) := by
  rw [rua_spec mesh hr]
  refine ⟨⟨rfl, rfl, rfl⟩, rfl, ⟨?_, ?_, ?_⟩, ⟨?_, ?_, ?_⟩⟩
  · rw [List.length_map, compact_length]
  · rw [List.length_map, compact_length]
  · rw [List.length_map, compact_length]
  · intro i hi
    exact compact_value_preserved _ _ hi
  · intro i hi
    exact compact_value_preserved _ _ hi
  · intro i hi
    exact compact_value_preserved _ _ hi

/-- Claim C8: `remove_unused_attrs` is idempotent on meshes with in-range face
indices. -/
theorem claim_C8 (mesh : PolygonMesh) (hr : inRange mesh) :
    remove_unused_attrs (remove_unused_attrs mesh) = remove_unused_attrs mesh := by
  have hM := rua_spec mesh hr
  set FP := firstAppear (flatFaces getPos mesh.faces) with hFPdef
  set FU := firstAppear (flatFaces getUv mesh.faces) with hFUdef
  set FN := firstAppear (flatFaces getNor mesh.faces) with hFNdef
  have hgP : ∀ v, getPos (combRw FP FU FN v) = (getPos v).map (idxOf FP) :=
    fun v => rfl
  have hgU : ∀ v, getUv (combRw FP FU FN v) = (getUv v).map (idxOf FU) :=
    fun v => rfl
  have hgN : ∀ v, getNor (combRw FP FU FN v) = (getNor v).map (idxOf FN) :=
    fun v => rfl
  have hfaces : (remove_unused_attrs mesh).faces =
      mapVerts (combRw FP FU FN) mesh.faces := by rw [hM]
  have hposes : (remove_unused_attrs mesh).positions =
      FP.map (fun i => mesh.positions.getD i default) := by rw [hM]
  have huvs : (remove_unused_attrs mesh).uv_coords =
      FU.map (fun i => mesh.uv_coords.getD i default) := by rw [hM]
  have hnors : (remove_unused_attrs mesh).normals =
      FN.map (fun i => mesh.normals.getD i default) := by rw [hM]
  have hflatP : flatFaces getPos (remove_unused_attrs mesh).faces =
      (flatFaces getPos mesh.faces).map (idxOf FP) := by
    rw [hfaces]
    exact flatFaces_comb getPos (idxOf FP) _ hgP mesh.faces
  have hflatU : flatFaces getUv (remove_unused_attrs mesh).faces =
      (flatFaces getUv mesh.faces).map (idxOf FU) := by
    rw [hfaces]
    exact flatFaces_comb getUv (idxOf FU) _ hgU mesh.faces
  have hflatN : flatFaces getNor (remove_unused_attrs mesh).faces =
      (flatFaces getNor mesh.faces).map (idxOf FN) := by
    rw [hfaces]
    exact flatFaces_comb getNor (idxOf FN) _ hgN mesh.faces
  have hlenP : (remove_unused_attrs mesh).positions.length = FP.length := by
    rw [hposes, List.length_map]
  have hlenU : (remove_unused_attrs mesh).uv_coords.length = FU.length := by
    rw [huvs, List.length_map]
  have hlenN : (remove_unused_attrs mesh).normals.length = FN.length := by
    rw [hnors, List.length_map]
  have hr' : inRange (remove_unused_attrs mesh) := by
    refine ⟨?_, ?_, ?_⟩
    · intro j hj
      rw [hflatP] at hj
      obtain ⟨i, hi, rfl⟩ := List.mem_map.1 hj
      rw [hlenP]
      exact idxOf_lt_length (mem_firstAppear_of_mem hi)
    · intro j hj
      rw [hflatU] at hj
      obtain ⟨i, hi, rfl⟩ := List.mem_map.1 hj
      rw [hlenU]
      exact idxOf_lt_length (mem_firstAppear_of_mem hi)
    · intro j hj
      rw [hflatN] at hj
      obtain ⟨i, hi, rfl⟩ := List.mem_map.1 hj
      rw [hlenN]
      exact idxOf_lt_length (mem_firstAppear_of_mem hi)
  have hnodupP : FP.Nodup := faGo_nodup _ [] List.nodup_nil
  have hnodupU : FU.Nodup := faGo_nodup _ [] List.nodup_nil
  have hnodupN : FN.Nodup := faGo_nodup _ [] List.nodup_nil
  have hFA2 : ∀ (flat : List ℕ),
      firstAppear (flat.map (idxOf (firstAppear flat))) =
        List.range (firstAppear flat).length := by
    intro flat
    have hinj : ∀ u ∈ firstAppear flat, ∀ v ∈ firstAppear flat,
        idxOf (firstAppear flat) u = idxOf (firstAppear flat) v → u = v :=
      fun u hu v hv h => idxOf_inj hu hv h
    have h2 := faGo_map_inj (firstAppear flat) (idxOf (firstAppear flat)) hinj
      flat [] (by simp) (fun u hu => mem_firstAppear_of_mem hu)
    have h3 : firstAppear (flat.map (idxOf (firstAppear flat))) =
        (firstAppear flat).map (idxOf (firstAppear flat)) := h2
    rw [h3]
    exact map_idxOf_self (faGo_nodup _ [] List.nodup_nil)
  have hFP2 : firstAppear (flatFaces getPos (remove_unused_attrs mesh).faces) =
      List.range FP.length := by
    rw [hflatP, hFPdef]
    exact hFA2 _
  have hFU2 : firstAppear (flatFaces getUv (remove_unused_attrs mesh).faces) =
      List.range FU.length := by
    rw [hflatU, hFUdef]
    exact hFA2 _
  have hFN2 : firstAppear (flatFaces getNor (remove_unused_attrs mesh).faces) =
      List.range FN.length := by
    rw [hflatN, hFNdef]
    exact hFA2 _
  rw [rua_spec (remove_unused_attrs mesh) hr']
  have h1 : (firstAppear (flatFaces getPos (remove_unused_attrs mesh).faces)).map
      (fun i => (remove_unused_attrs mesh).positions.getD i default) =
      (remove_unused_attrs mesh).positions := by
    rw [hFP2, ← hlenP, map_getD_range]
  have h2 : (firstAppear (flatFaces getUv (remove_unused_attrs mesh).faces)).map
      (fun i => (remove_unused_attrs mesh).uv_coords.getD i default) =
      (remove_unused_attrs mesh).uv_coords := by
    rw [hFU2, ← hlenU, map_getD_range]
  have h3 : (firstAppear (flatFaces getNor (remove_unused_attrs mesh).faces)).map
      (fun i => (remove_unused_attrs mesh).normals.getD i default) =
      (remove_unused_attrs mesh).normals := by
    rw [hFN2, ← hlenN, map_getD_range]
  have h4 : mapVerts (combRw
      (firstAppear (flatFaces getPos (remove_unused_attrs mesh).faces))
      (firstAppear (flatFaces getUv (remove_unused_attrs mesh).faces))
      (firstAppear (flatFaces getNor (remove_unused_attrs mesh).faces)))
      (remove_unused_attrs mesh).faces = (remove_unused_attrs mesh).faces := by
    rw [hFP2, hFU2, hFN2]
    calc mapVerts (combRw (List.range FP.length) (List.range FU.length)
          (List.range FN.length)) (remove_unused_attrs mesh).faces
        = mapVerts (combRw (List.range FP.length) (List.range FU.length)
          (List.range FN.length)) (mapVerts (combRw FP FU FN) mesh.faces) := by
          rw [hfaces]
    _ = mapVerts (fun v => combRw (List.range FP.length) (List.range FU.length)
          (List.range FN.length) (combRw FP FU FN v)) mesh.faces :=
          mapVerts_mapVerts _ _ _
    _ = mapVerts (combRw FP FU FN) mesh.faces := by
          apply mapVerts_congr
          intro f hf v hv
          have hpos : idxOf FP v.pos < FP.length :=
            idxOf_lt_length (mem_firstAppear_of_mem
              (mem_flatFaces_of_mem getPos hv hf rfl))
          show combRw _ _ _ ⟨idxOf FP v.pos, v.uv.map (idxOf FU),
            v.nor.map (idxOf FN)⟩ = _
          unfold combRw
          congr 1
          · exact idxOf_range hpos
          · cases huv : v.uv with
            | none => rfl
            | some i =>
              have hiu : idxOf FU i < FU.length :=
                idxOf_lt_length (mem_firstAppear_of_mem
                  (mem_flatFaces_of_mem getUv hv hf (show getUv v = some i from huv)))
              simp only [huv, Option.map_some']
              rw [idxOf_range hiu]
          · cases hnor : v.nor with
            | none => rfl
            | some i =>
              have hin : idxOf FN i < FN.length :=
                idxOf_lt_length (mem_firstAppear_of_mem
                  (mem_flatFaces_of_mem getNor hv hf
                    (show getNor v = some i from hnor)))
              simp only [hnor, Option.map_some']
              rw [idxOf_range hin]
    _ = (remove_unused_attrs mesh).faces := hfaces.symm
  rw [h1, h2, h3, h4]

/-- Claim C6 witness: the doc-comment example — four positions, one face
`[1,2,3]` — keeps exactly the three distinct referenced positions. -/
theorem claim_C6_witness :
    inRange ⟨[![0,0,0], ![1,0,0], ![0,1,0], ![0,0,1]], [], [],
      ⟨[[vtx 1, vtx 2, vtx 3]], [], []⟩⟩ ∧
    (remove_unused_attrs ⟨[![0,0,0], ![1,0,0], ![0,1,0], ![0,0,1]], [], [],
      ⟨[[vtx 1, vtx 2, vtx 3]], [], []⟩⟩).positions.length =
      (flatFaces getPos
        (⟨[[vtx 1, vtx 2, vtx 3]], [], []⟩ : Faces)).toFinset.card :=
  ⟨by decide,
    (claim_C6 ⟨[![0,0,0], ![1,0,0], ![0,1,0], ![0,0,1]], [], [],
      ⟨[[vtx 1, vtx 2, vtx 3]], [], []⟩⟩ (by decide)).2.2.1.1⟩

/-- Claim C8 witness: idempotence on a concrete mesh exercising all three
attribute kinds. -/
theorem claim_C8_witness :
    inRange ⟨[![0,0,0], ![1,0,0], ![0,1,0], ![0,0,1]], [![0,0], ![1,1]],
      [![0,0,1]],
      ⟨[[⟨1, some 1, some 0⟩, ⟨2, none, some 0⟩, ⟨3, some 1, none⟩]], [], []⟩⟩ ∧
    remove_unused_attrs (remove_unused_attrs
      ⟨[![0,0,0], ![1,0,0], ![0,1,0], ![0,0,1]], [![0,0], ![1,1]], [![0,0,1]],
        ⟨[[⟨1, some 1, some 0⟩, ⟨2, none, some 0⟩, ⟨3, some 1, none⟩]], [], []⟩⟩) =
      remove_unused_attrs
      ⟨[![0,0,0], ![1,0,0], ![0,1,0], ![0,0,1]], [![0,0], ![1,1]], [![0,0,1]],
        ⟨[[⟨1, some 1, some 0⟩, ⟨2, none, some 0⟩, ⟨3, some 1, none⟩]], [], []⟩⟩ :=
  ⟨by decide,
    claim_C8 ⟨[![0,0,0], ![1,0,0], ![0,1,0], ![0,0,1]], [![0,0], ![1,1]],
      [![0,0,1]],
      ⟨[[⟨1, some 1, some 0⟩, ⟨2, none, some 0⟩, ⟨3, some 1, none⟩]], [], []⟩⟩
      (by decide)⟩

end Truck
